import Mathlib

/-
Verification of the collections library (doubly linked dequeue with cursor
based split and splice operations, and a growable vector).

The dequeue from src/dequeue.rs is embedded shallowly: raw pointers become
natural-number addresses into an explicit heap (an association list of nodes
together with a counter supplying fresh addresses).  Every operation is
translated statement by statement from the Rust source; a dereference of a
pointer becomes a lookup that falls back to a default node when the address
is dead (the Rust original would be undefined behaviour there).  The vector
from src/vector.rs is embedded at slot level: the raw buffer becomes a list
of optional values, where none marks a slot whose memory has not been
written, so that the raw copy in remove can be modelled exactly.
-/

namespace Collections

variable {T : Type}

/-- A node of the doubly linked dequeue: the stored value and the two
neighbour links.  A link is an optional heap address. -/
structure Node (T : Type) where
  next : Option Nat
  prev : Option Nat
  value : T
deriving DecidableEq

instance [Inhabited T] : Inhabited (Node T) := ⟨⟨none, none, default⟩⟩

/-- The heap: an association list from addresses to nodes, plus a counter
handing out fresh addresses (a real allocator never reuses a live address). -/
structure Heap (T : Type) where
  nodes : List (Nat × Node T)
  fresh : Nat
deriving DecidableEq

def emptyHeap (T : Type) : Heap T := ⟨[], 0⟩

def lookupNode : List (Nat × Node T) → Nat → Option (Node T)
  | [], _ => none
  | (k, nd) :: rest, a => if k = a then some nd else lookupNode rest a

def removeNode : List (Nat × Node T) → Nat → List (Nat × Node T)
  | [], _ => []
  | (k, nd) :: rest, a =>
      if k = a then removeNode rest a else (k, nd) :: removeNode rest a

/-- Dereference an address.  Dead addresses give the default node: the Rust
source would be undefined behaviour at such a dereference. -/
def Heap.get [Inhabited T] (h : Heap T) (a : Nat) : Node T :=
  (lookupNode h.nodes a).getD default

/-- Write a node through an address. -/
def Heap.set (h : Heap T) (a : Nat) (nd : Node T) : Heap T :=
  ⟨(a, nd) :: h.nodes, h.fresh⟩

/-- Box::new followed by Box::into_raw: allocate a fresh address. -/
def Heap.alloc (h : Heap T) (nd : Node T) : Nat × Heap T :=
  (h.fresh, ⟨(h.fresh, nd) :: h.nodes, h.fresh + 1⟩)

/-- Box::from_raw followed by the drop of the box: free the address. -/
def Heap.free (h : Heap T) (a : Nat) : Heap T :=
  ⟨removeNode h.nodes a, h.fresh⟩

/-- The dequeue header from src/dequeue.rs: head link, tail link, length. -/
structure Dequeue (T : Type) where
  head : Option Nat
  tail : Option Nat
  len : Nat
deriving DecidableEq

def Dequeue.new : Dequeue T := ⟨none, none, 0⟩

def Dequeue.is_empty (d : Dequeue T) : Bool := d.len = 0

/-- Dequeue::push_front from src/dequeue.rs lines 62-80. -/
def Dequeue.push_front [Inhabited T] (d : Dequeue T) (value : T) (h : Heap T) :
    Dequeue T × Heap T :=
  let (node, h1) := h.alloc ⟨none, none, value⟩
  match d.head with
  | some old_head =>
      let h2 := h1.set old_head { h1.get old_head with prev := some node }
      let h3 := h2.set node { h2.get node with next := some old_head }
      (⟨some node, d.tail, d.len + 1⟩, h3)
  | none =>
      (⟨some node, some node, d.len + 1⟩, h1)

/-- Dequeue::push_back from src/dequeue.rs lines 82-100. -/
def Dequeue.push_back [Inhabited T] (d : Dequeue T) (value : T) (h : Heap T) :
    Dequeue T × Heap T :=
  let (node, h1) := h.alloc ⟨none, none, value⟩
  match d.tail with
  | some old_tail =>
      let h2 := h1.set old_tail { h1.get old_tail with next := some node }
      let h3 := h2.set node { h2.get node with prev := some old_tail }
      (⟨d.head, some node, d.len + 1⟩, h3)
  | none =>
      (⟨some node, some node, d.len + 1⟩, h1)

/-- Dequeue::pop_front from src/dequeue.rs lines 102-119.  The freed box is
dropped when the closure ends, hence the free happens after the relink. -/
def Dequeue.pop_front [Inhabited T] (d : Dequeue T) (h : Heap T) :
    Option T × Dequeue T × Heap T :=
  match d.head with
  | none => (none, d, h)
  | some node =>
      let current_head := h.get node
      let value := current_head.value
      match current_head.next with
      | some new_head =>
          (some value, ⟨some new_head, d.tail, d.len - 1⟩,
            (h.set new_head { h.get new_head with prev := none }).free node)
      | none =>
          (some value, ⟨none, none, d.len - 1⟩, h.free node)

/-- Dequeue::pop_back from src/dequeue.rs lines 121-138. -/
def Dequeue.pop_back [Inhabited T] (d : Dequeue T) (h : Heap T) :
    Option T × Dequeue T × Heap T :=
  match d.tail with
  | none => (none, d, h)
  | some node =>
      let current_tail := h.get node
      let value := current_tail.value
      match current_tail.prev with
      | some new_tail =>
          (some value, ⟨d.head, some new_tail, d.len - 1⟩,
            (h.set new_tail { h.get new_tail with next := none }).free node)
      | none =>
          (some value, ⟨none, none, d.len - 1⟩, h.free node)

/-- The borrowing iterator from src/dequeue.rs lines 18-23: a copy of the
head link, the tail link and the length. -/
structure Iter (T : Type) where
  head : Option Nat
  tail : Option Nat
  len : Nat

def Dequeue.iter (d : Dequeue T) : Iter T := ⟨d.head, d.tail, d.len⟩

/-- Iter::next from src/dequeue.rs lines 198-211. -/
def Iter.next [Inhabited T] (it : Iter T) (h : Heap T) : Option T × Iter T :=
  if it.len = 0 then (none, it)
  else
    match it.head with
    | none => (none, it)
    | some node =>
        (some (h.get node).value,
          { it with len := it.len - 1, head := (h.get node).next })

/-- Drive the iterator, collecting the yielded values.  The fuel argument
bounds the number of next calls; callers pass the iterator length. -/
def Iter.collect [Inhabited T] (h : Heap T) : Iter T → Nat → List T
  | _, 0 => []
  | it, fuel + 1 =>
      match it.next h with
      | (none, _) => []
      | (some v, it') => v :: Iter.collect h it' fuel

/-- Extend for Dequeue from src/dequeue.rs lines 338-344: push_back every
item in order. -/
def Dequeue.extend [Inhabited T] (d : Dequeue T) (vs : List T) (h : Heap T) :
    Dequeue T × Heap T :=
  match vs with
  | [] => (d, h)
  | v :: vs =>
      let (d', h') := d.push_back v h
      Dequeue.extend d' vs h'

/-- FromIterator for Dequeue from src/dequeue.rs lines 346-353: extend a new
dequeue. -/
def Dequeue.from_iter [Inhabited T] (vs : List T) (h : Heap T) :
    Dequeue T × Heap T :=
  Dequeue.extend Dequeue.new vs h

/-- The cursor from src/dequeue.rs lines 34-38.  The Rust cursor borrows its
dequeue mutably; here it holds the dequeue by value and hands it back when
the cursor is dropped. -/
structure CursorMut (T : Type) where
  current : Option Nat
  dequeue : Dequeue T
  index : Option Nat
deriving DecidableEq

/-- Dequeue::cursor_mut from src/dequeue.rs lines 174-180. -/
def Dequeue.cursor_mut (d : Dequeue T) : CursorMut T := ⟨none, d, none⟩

/-- CursorMut::move_next from src/dequeue.rs lines 399-415.  The source
increments through index.as_mut().unwrap(); getD 0 renders the unwrap. -/
def CursorMut.move_next [Inhabited T] (c : CursorMut T) (h : Heap T) :
    CursorMut T :=
  match c.current with
  | some current =>
      match (h.get current).next with
      | some nxt => { c with current := some nxt, index := some (c.index.getD 0 + 1) }
      | none => { c with current := none, index := none }
  | none =>
      if ¬ c.dequeue.is_empty then
        { c with current := c.dequeue.head, index := some 0 }
      else
        c

/-- CursorMut::split_before from src/dequeue.rs lines 463-501.  Returns the
detached dequeue, the cursor after the split, and the heap. -/
def CursorMut.split_before [Inhabited T] (c : CursorMut T) (h : Heap T) :
    Dequeue T × CursorMut T × Heap T :=
  match c.current with
  | none => (c.dequeue, { c with dequeue := Dequeue.new }, h)
  | some current =>
      let old_len := c.dequeue.len
      let old_idx := c.index.getD 0
      let prev := (h.get current).prev
      let new_len := old_len - old_idx
      let new_head := c.current
      let new_tail := c.dequeue.tail
      let output_len := old_len - new_len
      let output_head := c.dequeue.head
      let output_tail := prev
      let h' :=
        match prev with
        | some p =>
            let h1 := h.set current { h.get current with prev := none }
            h1.set p { h1.get p with next := none }
        | none => h
      (⟨output_head, output_tail, output_len⟩,
        { current := c.current, dequeue := ⟨new_head, new_tail, new_len⟩,
          index := some 0 },
        h')

/-- CursorMut::split_after from src/dequeue.rs lines 503-541. -/
def CursorMut.split_after [Inhabited T] (c : CursorMut T) (h : Heap T) :
    Dequeue T × CursorMut T × Heap T :=
  match c.current with
  | none => (c.dequeue, { c with dequeue := Dequeue.new }, h)
  | some current =>
      let old_len := c.dequeue.len
      let old_idx := c.index.getD 0
      let nxt := (h.get current).next
      let new_len := old_idx + 1
      let new_head := c.dequeue.head
      let new_tail := c.current
      let output_len := old_len - new_len
      let output_head := nxt
      let output_tail := c.dequeue.tail
      let h' :=
        match nxt with
        | some n =>
            let h1 := h.set current { h.get current with next := none }
            h1.set n { h1.get n with prev := none }
        | none => h
      (⟨output_head, output_tail, output_len⟩,
        { current := c.current, dequeue := ⟨new_head, new_tail, new_len⟩,
          index := some old_idx },
        h')

/-- CursorMut::splice_before from src/dequeue.rs lines 543-577.  The input
dequeue is consumed; the taken head and tail links are unwrapped through
getD 0 exactly where the source unwraps. -/
def CursorMut.splice_before [Inhabited T] (c : CursorMut T) (input : Dequeue T)
    (h : Heap T) : CursorMut T × Heap T :=
  if input.is_empty then (c, h)
  else if c.dequeue.is_empty then ({ c with dequeue := input }, h)
  else
    let input_head := input.head.getD 0
    let input_tail := input.tail.getD 0
    let (d1, h') :=
      match c.current with
      | some current =>
          match (h.get current).prev with
          | some prev =>
              let h1 := h.set prev { h.get prev with next := some input_head }
              let h2 := h1.set input_head { h1.get input_head with prev := some prev }
              let h3 := h2.set current { h2.get current with prev := some input_tail }
              let h4 := h3.set input_tail { h3.get input_tail with next := some current }
              (c.dequeue, h4)
          | none =>
              let h1 := h.set current { h.get current with prev := some input_tail }
              let h2 := h1.set input_tail { h1.get input_tail with next := some current }
              ({ c.dequeue with head := some input_head }, h2)
      | none =>
          let tl := c.dequeue.tail.getD 0
          let h1 := h.set tl { h.get tl with next := some input_head }
          let h2 := h1.set input_head { h1.get input_head with prev := c.dequeue.tail }
          ({ c.dequeue with tail := some input_tail }, h2)
    ({ c with dequeue := { d1 with len := d1.len + input.len } }, h')

/-- CursorMut::splice_after from src/dequeue.rs lines 579-613. -/
def CursorMut.splice_after [Inhabited T] (c : CursorMut T) (input : Dequeue T)
    (h : Heap T) : CursorMut T × Heap T :=
  if input.is_empty then (c, h)
  else if c.dequeue.is_empty then ({ c with dequeue := input }, h)
  else
    let input_head := input.head.getD 0
    let input_tail := input.tail.getD 0
    let (d1, h') :=
      match c.current with
      | some current =>
          match (h.get current).next with
          | some nxt =>
              let h1 := h.set nxt { h.get nxt with prev := some input_tail }
              let h2 := h1.set input_tail { h1.get input_tail with next := some nxt }
              let h3 := h2.set current { h2.get current with next := some input_head }
              let h4 := h3.set input_head { h3.get input_head with prev := some current }
              (c.dequeue, h4)
          | none =>
              let h1 := h.set current { h.get current with next := some input_head }
              let h2 := h1.set input_head { h1.get input_head with prev := some current }
              ({ c.dequeue with tail := some input_tail }, h2)
      | none =>
          let hd := c.dequeue.head.getD 0
          let h1 := h.set hd { h.get hd with prev := some input_tail }
          let h2 := h1.set input_tail { h1.get input_tail with next := c.dequeue.head }
          ({ c.dequeue with head := some input_head }, h2)
    ({ c with dequeue := { d1 with len := d1.len + input.len } }, h')

/-
The vector from src/vector.rs.  The raw buffer is a list of optional values:
the list length is the capacity, none marks a slot whose memory has not been
written.  The Buffer struct of the source only carries the pointer and the
capacity, so the buffer list stands for both.  The zero sized type special
case of the source is not modelled: T is assumed to occupy memory.
-/

/-- A growable vector: raw buffer plus the count of elements in use. -/
structure Vector (T : Type) where
  buf : List (Option T)
  len : Nat
deriving DecidableEq

def Vector.new (T : Type) : Vector T := ⟨[], 0⟩

def Vector.cap (v : Vector T) : Nat := v.buf.length

/-- ptr::read at a slot.  Out of range or unwritten slots give none: the
source would be undefined behaviour when reading them. -/
def rawRead (buf : List (Option T)) (i : Nat) : Option T := buf.getD i none

/-- Buffer::grow from src/vector.rs lines 35-70: first growth goes 0 to 1,
afterwards the capacity doubles; realloc keeps the old slots and the new
slots are unwritten. -/
def growBuf (buf : List (Option T)) : List (Option T) :=
  if buf.length = 0 then [none]
  else buf ++ List.replicate buf.length none

/-- ptr::copy(src, dst, count): memmove, reading the source range from the
buffer as it was before the writes. -/
def ptrCopy (buf : List (Option T)) (src dst count : Nat) : List (Option T) :=
  (List.range count).foldl (fun b k => b.set (dst + k) (rawRead buf (src + k))) buf

/-- Vector::push from src/vector.rs lines 119-129. -/
def Vector.push (v : Vector T) (value : T) : Vector T :=
  let buf := if v.len = v.cap then growBuf v.buf else v.buf
  ⟨buf.set v.len (some value), v.len + 1⟩

/-- Vector::insert from src/vector.rs lines 144-162.  The index bound assert
becomes the none result. -/
def Vector.insert (v : Vector T) (index : Nat) (value : T) : Option (Vector T) :=
  if index ≤ v.len then
    let buf := if v.cap = v.len then growBuf v.buf else v.buf
    let buf1 := ptrCopy buf index (index + 1) (v.len - index)
    some ⟨buf1.set index (some value), v.len + 1⟩
  else none

/-- Vector::remove from src/vector.rs lines 165-179.  The source reads the
slot, then copies len - index slots starting one past the index back by one,
and returns without touching len. -/
def Vector.remove (v : Vector T) (index : Nat) :
    Option (Option T × Vector T) :=
  if index < v.len then
    let value := rawRead v.buf index
    let buf := ptrCopy v.buf (index + 1) index (v.len - index)
    some (value, ⟨buf, v.len⟩)
  else none

/-- RawIter from src/vector.rs lines 232-249: start and end of the range to
yield, over a snapshot of the borrowed slots (the borrow rules out any write
to them while the iterator lives). -/
structure RawIter (T : Type) where
  slots : List (Option T)
  start : Nat
  stop : Nat

/-- RawIter::new over the first len slots of the vector. -/
def RawIter.new (slice : List (Option T)) : RawIter T :=
  ⟨slice, 0, slice.length⟩

/-- RawIter::next from src/vector.rs lines 255-270 (the branch for a type of
nonzero size): yield the slot at start and advance. -/
def RawIter.next [Inhabited T] (it : RawIter T) : Option T × RawIter T :=
  if it.start = it.stop then (none, it)
  else (some ((rawRead it.slots it.start).getD default),
    { it with start := it.start + 1 })

/-- Drain from src/vector.rs lines 333-336. -/
structure Drain (T : Type) where
  iter : RawIter T

/-- Drain::next from src/vector.rs lines 341-343. -/
def Drain.next [Inhabited T] (dr : Drain T) : Option T × Drain T :=
  let (r, it) := dr.iter.next
  (r, ⟨it⟩)

/-- Vector::drain from src/vector.rs lines 181-192: build the raw iterator
over the first len slots, then set len to 0 at once. -/
def Vector.drain [Inhabited T] (v : Vector T) : Drain T × Vector T :=
  (⟨RawIter.new (v.buf.take v.len)⟩, { v with len := 0 })

/-- Consume the drain iterator front to back, collecting the yielded
values; the fuel bounds the number of next calls. -/
def Drain.collect [Inhabited T] : Drain T → Nat → List T
  | _, 0 => []
  | dr, fuel + 1 =>
      match dr.next with
      | (none, _) => []
      | (some v, dr') => v :: Drain.collect dr' fuel

/-- The elements a vector holds: the written content of its first len
slots (unwritten slots surface as the default value). -/
def Vector.elems [Inhabited T] (v : Vector T) : List T :=
  (v.buf.take v.len).map fun o => o.getD default

/-- A well formed vector: len fits the capacity and the first len slots are
all written. -/
def Vector.WF (v : Vector T) : Prop :=
  v.len ≤ v.buf.length ∧ ∀ i, i < v.len → (rawRead v.buf i).isSome = true

/-
Specification layer for the dequeue: which address list a dequeue
represents, and the values along it.
-/

/-- The first address of a list, or the given link when the list is empty. -/
def headOr (as : List Nat) (n : Option Nat) : Option Nat :=
  match as with
  | [] => n
  | a :: _ => some a

/-- The last address of a list, or the given link when the list is empty. -/
def lastOr (p : Option Nat) : List Nat → Option Nat
  | [] => p
  | a :: as => lastOr (some a) as

/-- The addresses as form a doubly linked chain in h: each node carries a
prev link to its predecessor (the first one to p) and a next link to its
successor (the last one to n). -/
def linked [Inhabited T] (h : Heap T) : Option Nat → List Nat → Option Nat → Prop
  | _, [], _ => True
  | p, a :: as, n =>
      (h.get a).prev = p ∧ (h.get a).next = headOr as n ∧ linked h (some a) as n

instance linkedDec [Inhabited T] (h : Heap T) :
    (p : Option Nat) → (as : List Nat) → (n : Option Nat) →
      Decidable (linked h p as n)
  | _, [], _ => .isTrue trivial
  | _, a :: as, n =>
      have : Decidable (linked h (some a) as n) := linkedDec h (some a) as n
      inferInstanceAs (Decidable (_ ∧ _ ∧ _))

/-- The dequeue d represents the address list as in heap h: the chain is
doubly linked with no dangling end, head and tail are the ends of as, len is
its length, and no address repeats. -/
def Rep [Inhabited T] (h : Heap T) (d : Dequeue T) (as : List Nat) : Prop :=
  linked h none as none ∧ d.head = headOr as none ∧ d.tail = lastOr none as ∧
    d.len = as.length ∧ as.Nodup

instance [Inhabited T] (h : Heap T) (d : Dequeue T) (as : List Nat) :
    Decidable (Rep h d as) :=
  inferInstanceAs (Decidable (_ ∧ _ ∧ _ ∧ _ ∧ _))

/-- The values stored along an address list. -/
def valsOf [Inhabited T] (h : Heap T) (as : List Nat) : List T :=
  as.map fun a => (h.get a).value

/-
Operation scripts used by the behavioural claims.
-/

/-- One step of the FIFO scenario: push_back a value or pop_front. -/
inductive QOp (T : Type) where
  | push (v : T)
  | pop

/-- Run a FIFO script on the dequeue, recording every pop_front result. -/
def runDequeue [Inhabited T] : List (QOp T) → Dequeue T → Heap T → List (Option T)
  | [], _, _ => []
  | QOp.push v :: ops, d, h =>
      runDequeue ops (d.push_back v h).1 (d.push_back v h).2
  | QOp.pop :: ops, d, h =>
      (d.pop_front h).1 ::
        runDequeue ops (d.pop_front h).2.1 (d.pop_front h).2.2

/-- Run a FIFO script on the reference model, a plain list seen as a queue:
push appends at the back, pop yields the first element. -/
def runModel : List (QOp T) → List T → List (Option T)
  | [], _ => []
  | QOp.push v :: ops, q => runModel ops (q ++ [v])
  | QOp.pop :: ops, q => q.head? :: runModel ops q.tail

/-- One step of the general push and pop scenario, at either end. -/
inductive DOp (T : Type) where
  | pushF (v : T)
  | pushB (v : T)
  | popF
  | popB

/-- Run a push and pop script; the final component counts the pops that
returned a value. -/
def runOps [Inhabited T] :
    List (DOp T) → Dequeue T → Heap T → Dequeue T × Heap T × Nat
  | [], d, h => (d, h, 0)
  | DOp.pushF v :: ops, d, h =>
      runOps ops (d.push_front v h).1 (d.push_front v h).2
  | DOp.pushB v :: ops, d, h =>
      runOps ops (d.push_back v h).1 (d.push_back v h).2
  | DOp.popF :: ops, d, h =>
      let r := runOps ops (d.pop_front h).2.1 (d.pop_front h).2.2
      (r.1, r.2.1, (if (d.pop_front h).1.isSome then 1 else 0) + r.2.2)
  | DOp.popB :: ops, d, h =>
      let r := runOps ops (d.pop_back h).2.1 (d.pop_back h).2.2
      (r.1, r.2.1, (if (d.pop_back h).1.isSome then 1 else 0) + r.2.2)

/-- The number of pushes in a script. -/
def countPushes : List (DOp T) → Nat
  | [] => 0
  | DOp.pushF _ :: ops => countPushes ops + 1
  | DOp.pushB _ :: ops => countPushes ops + 1
  | DOp.popF :: ops => countPushes ops
  | DOp.popB :: ops => countPushes ops

/-- Iterate move_next the given number of times. -/
def moveNextN [Inhabited T] (h : Heap T) : Nat → CursorMut T → CursorMut T
  | 0, c => c
  | n + 1, c => moveNextN h n (c.move_next h)

/-
Concrete states used as explicit inputs by the witnesses below.
-/

/-- A dequeue holding 1 and 2, with its heap. -/
def exPair : Dequeue Nat × Heap Nat := Dequeue.from_iter [1, 2] (emptyHeap Nat)

/-- A dequeue holding only 1, with its heap. -/
def exOne : Dequeue Nat × Heap Nat := Dequeue.from_iter [1] (emptyHeap Nat)

/-- A dequeue holding only 2, allocated in the heap of exOne. -/
def exTwo : Dequeue Nat × Heap Nat := Dequeue.from_iter [2] exOne.2

/-- The fifteen element dequeue of the split_after scenario from the test at
src/dequeue.rs lines 983-1010, with its heap. -/
def exBig : Dequeue Nat × Heap Nat :=
  Dequeue.from_iter [200, 201, 202, 203, 1, 100, 101, 102, 103, 8, 2, 3, 4, 5, 6]
    (emptyHeap Nat)

/-- The vector holding 1, 99, 3, built by three pushes. -/
def exVec : Vector Nat := (((Vector.new Nat).push 1).push 99).push 3

/-
Helper lemmas: heap reads after writes, ends of address lists, chains.
-/

theorem Heap.get_set_self [Inhabited T] (h : Heap T) (a : Nat) (nd : Node T) :
    (h.set a nd).get a = nd := by
  simp [Heap.get, Heap.set, lookupNode]

theorem Heap.get_set_ne [Inhabited T] (h : Heap T) {a b : Nat} (nd : Node T)
    (hne : b ≠ a) : (h.set a nd).get b = h.get b := by
  simp [Heap.get, Heap.set, lookupNode, Ne.symm hne]

theorem lookupNode_removeNode (l : List (Nat × Node T)) (a b : Nat)
    (hne : b ≠ a) : lookupNode (removeNode l a) b = lookupNode l b := by
  induction l with
  | nil => rfl
  | cons kv rest ih =>
    obtain ⟨k, nd⟩ := kv
    by_cases hk : k = a
    · subst hk
      have : k ≠ b := fun hkb => hne (hkb ▸ rfl)
      simp [removeNode, lookupNode, this, ih]
    · by_cases hkb : k = b
      · subst hkb; simp [removeNode, hne, lookupNode]
      · simp [removeNode, hk, lookupNode, hkb, ih]

theorem Heap.get_free_ne [Inhabited T] (h : Heap T) {a b : Nat}
    (hne : b ≠ a) : (h.free a).get b = h.get b := by
  simp [Heap.get, Heap.free, lookupNode_removeNode _ _ _ hne]

theorem Heap.get_alloc_self [Inhabited T] (h : Heap T) (nd : Node T) :
    (h.alloc nd).2.get (h.alloc nd).1 = nd := by
  simp [Heap.get, Heap.alloc, lookupNode]

theorem Heap.get_alloc_ne [Inhabited T] (h : Heap T) (nd : Node T) {b : Nat}
    (hne : b ≠ h.fresh) : (h.alloc nd).2.get b = h.get b := by
  simp [Heap.get, Heap.alloc, lookupNode, Ne.symm hne]

@[simp] theorem Heap.fresh_set (h : Heap T) (a : Nat) (nd : Node T) :
    (h.set a nd).fresh = h.fresh := rfl

@[simp] theorem Heap.fresh_free (h : Heap T) (a : Nat) :
    (h.free a).fresh = h.fresh := rfl

@[simp] theorem Heap.fresh_alloc (h : Heap T) (nd : Node T) :
    (h.alloc nd).2.fresh = h.fresh + 1 := rfl

@[simp] theorem headOr_nil (n : Option Nat) : headOr [] n = n := rfl

@[simp] theorem headOr_cons (a : Nat) (as : List Nat) (n : Option Nat) :
    headOr (a :: as) n = some a := rfl

theorem headOr_append (as bs : List Nat) (n : Option Nat) :
    headOr (as ++ bs) n = headOr as (headOr bs n) := by
  cases as <;> rfl

theorem headOr_of_ne_nil {as : List Nat} (hne : as ≠ []) (n m : Option Nat) :
    headOr as n = headOr as m := by
  cases as with
  | nil => exact absurd rfl hne
  | cons a as => rfl

@[simp] theorem lastOr_nil (p : Option Nat) : lastOr p [] = p := rfl

@[simp] theorem lastOr_cons (p : Option Nat) (a : Nat) (as : List Nat) :
    lastOr p (a :: as) = lastOr (some a) as := rfl

theorem lastOr_append (p : Option Nat) (as bs : List Nat) :
    lastOr p (as ++ bs) = lastOr (lastOr p as) bs := by
  induction as generalizing p with
  | nil => rfl
  | cons a as ih => simpa using ih (some a)

@[simp] theorem lastOr_concat (p : Option Nat) (as : List Nat) (a : Nat) :
    lastOr p (as ++ [a]) = some a := by
  simp [lastOr_append]

theorem lastOr_of_ne_nil {as : List Nat} (hne : as ≠ []) (p q : Option Nat) :
    lastOr p as = lastOr q as := by
  cases as with
  | nil => exact absurd rfl hne
  | cons a as => rfl

@[simp] theorem linked_nil [Inhabited T] (h : Heap T) (p n : Option Nat) :
    linked h p ([] : List Nat) n := trivial

theorem linked_cons [Inhabited T] (h : Heap T) (p n : Option Nat) (a : Nat)
    (as : List Nat) :
    linked h p (a :: as) n ↔
      (h.get a).prev = p ∧ (h.get a).next = headOr as n ∧
        linked h (some a) as n := Iff.rfl

theorem linked_congr [Inhabited T] {h h' : Heap T} :
    ∀ {as : List Nat} {p n : Option Nat},
      (∀ a ∈ as, h'.get a = h.get a) → linked h p as n → linked h' p as n := by
  intro as
  induction as with
  | nil => intro p n _ _; trivial
  | cons a as ih =>
    intro p n hg hl
    obtain ⟨h1, h2, h3⟩ := hl
    have ha : h'.get a = h.get a := hg a (by simp)
    exact ⟨by rw [ha]; exact h1, by rw [ha]; exact h2,
      ih (fun b hb => hg b (by simp [hb])) h3⟩

theorem linked_append [Inhabited T] (h : Heap T) (n : Option Nat) :
    ∀ (as : List Nat) (p : Option Nat) (bs : List Nat),
      linked h p (as ++ bs) n ↔
        linked h p as (headOr bs n) ∧ linked h (lastOr p as) bs n := by
  intro as
  induction as with
  | nil => intro p bs; simp
  | cons a as ih =>
    intro p bs
    simp only [List.cons_append, linked_cons, lastOr_cons, headOr_append]
    rw [ih (some a) bs]
    tauto

@[simp] theorem valsOf_nil [Inhabited T] (h : Heap T) :
    valsOf h ([] : List Nat) = [] := rfl

@[simp] theorem valsOf_cons [Inhabited T] (h : Heap T) (a : Nat) (as : List Nat) :
    valsOf h (a :: as) = (h.get a).value :: valsOf h as := rfl

@[simp] theorem valsOf_append [Inhabited T] (h : Heap T) (as bs : List Nat) :
    valsOf h (as ++ bs) = valsOf h as ++ valsOf h bs := by
  simp [valsOf]

theorem valsOf_congr [Inhabited T] {h h' : Heap T} :
    ∀ {as : List Nat},
      (∀ a ∈ as, (h'.get a).value = (h.get a).value) →
        valsOf h' as = valsOf h as := by
  intro as
  induction as with
  | nil => intro _; rfl
  | cons a as ih =>
    intro hg
    simp only [valsOf_cons]
    rw [hg a (by simp), ih (fun b hb => hg b (by simp [hb]))]

theorem valsOf_take [Inhabited T] (h : Heap T) (as : List Nat) (i : Nat) :
    valsOf h (as.take i) = (valsOf h as).take i := by
  simp [valsOf, List.map_take]

theorem valsOf_drop [Inhabited T] (h : Heap T) (as : List Nat) (i : Nat) :
    valsOf h (as.drop i) = (valsOf h as).drop i := by
  simp [valsOf, List.map_drop]

theorem drop_eq_cons_of_getElem {α : Type} :
    ∀ (as : List α) (i : Nat) (cur : α), as[i]? = some cur →
      as.drop i = cur :: as.drop (i + 1) := by
  intro as
  induction as with
  | nil => intro i cur hc; simp at hc
  | cons a as ih =>
    intro i cur hc
    cases i with
    | zero => simp at hc; simp [hc]
    | succ i =>
      simp only [List.getElem?_cons_succ] at hc
      simpa using ih i cur hc

theorem lt_length_of_getElem {α : Type} :
    ∀ (as : List α) (i : Nat) (cur : α), as[i]? = some cur → i < as.length := by
  intro as
  induction as with
  | nil => intro i cur hc; simp at hc
  | cons a as ih =>
    intro i cur hc
    cases i with
    | zero => simp
    | succ i =>
      simp only [List.getElem?_cons_succ] at hc
      simpa using ih i cur hc

theorem nodup_concat {l : List Nat} {a : Nat} (hl : l.Nodup) (ha : a ∉ l) :
    (l ++ [a]).Nodup := by
  rw [List.nodup_append]
  refine ⟨hl, by simp, ?_⟩
  intro x hx
  simp only [List.mem_singleton]
  intro hxa
  exact ha (hxa ▸ hx)

/-
Preservation of the representation by the four push and pop operations.
-/

theorem push_back_rep [Inhabited T] {h : Heap T} {d : Dequeue T} {as : List Nat}
    (v : T) (hrep : Rep h d as) (hb : ∀ a ∈ as, a < h.fresh) :
    Rep (d.push_back v h).2 (d.push_back v h).1 (as ++ [h.fresh]) ∧
      (d.push_back v h).2.fresh = h.fresh + 1 ∧
      (∀ a ∈ as ++ [h.fresh], a < (d.push_back v h).2.fresh) ∧
      valsOf (d.push_back v h).2 (as ++ [h.fresh]) = valsOf h as ++ [v] := by
  obtain ⟨hl, hh, ht, hlen, hnd⟩ := hrep
  have hfas : h.fresh ∉ as := fun hmem => absurd (hb _ hmem) (by simp)
  rcases List.eq_nil_or_concat as with hcase | ⟨as₀, t, hcase⟩
  · subst hcase
    rw [lastOr_nil] at ht
    have hget : (Heap.mk ((h.fresh, (⟨none, none, v⟩ : Node T)) :: h.nodes)
        (h.fresh + 1)).get h.fresh = ⟨none, none, v⟩ := by
      simp [Heap.get, lookupNode]
    have hrun : d.push_back v h =
        (⟨some h.fresh, some h.fresh, d.len + 1⟩,
          ⟨(h.fresh, ⟨none, none, v⟩) :: h.nodes, h.fresh + 1⟩) := by
      simp only [Dequeue.push_back, Heap.alloc, ht]
    rw [hrun]
    refine ⟨⟨⟨?_, ?_, trivial⟩, rfl, rfl, ?_, ?_⟩, rfl, ?_, ?_⟩
    · simp [hget]
    · simp [hget]
    · simp [hlen]
    · simp
    · simp
    · simp [valsOf, hget]
  · subst hcase
    simp only [List.concat_eq_append] at hb hl hh ht hlen hnd hfas ⊢
    rw [lastOr_concat] at ht
    have htmem : t ∈ as₀ ++ [t] := by simp
    have htf : t ≠ h.fresh := Nat.ne_of_lt (hb _ htmem)
    -- the heap after the three writes of push_back
    set hA : Heap T := (h.alloc ⟨none, none, v⟩).2 with hAdef
    set h2 : Heap T := hA.set t { hA.get t with next := some h.fresh } with h2def
    set h3 : Heap T := h2.set h.fresh { h2.get h.fresh with prev := some t } with h3def
    have hrun : (d.push_back v h) = (⟨d.head, some h.fresh, d.len + 1⟩, h3) := by
      simp only [Dequeue.push_back, ht, h3def, h2def, hAdef, Heap.alloc]
    rw [hrun]
    have hgt0 : hA.get t = h.get t := Heap.get_alloc_ne h _ htf
    have hgf0 : hA.get h.fresh = ⟨none, none, v⟩ := Heap.get_alloc_self h _
    have hg2f : h2.get h.fresh = ⟨none, none, v⟩ := by
      rw [h2def, Heap.get_set_ne _ _ (Ne.symm htf), hgf0]
    have hg3f : h3.get h.fresh = ⟨none, some t, v⟩ := by
      rw [h3def, Heap.get_set_self, hg2f]
    have hg3t : h3.get t = { h.get t with next := some h.fresh } := by
      rw [h3def, Heap.get_set_ne _ _ htf, h2def, Heap.get_set_self, hgt0]
    have hg3x : ∀ x ∈ as₀, h3.get x = h.get x := by
      intro x hx
      have hxt : x ≠ t := by
        intro hxt
        subst hxt
        exact (List.disjoint_of_nodup_append hnd) hx (by simp)
      have hxf : x ≠ h.fresh := Nat.ne_of_lt (hb _ (by simp [hx]))
      rw [h3def, Heap.get_set_ne _ _ hxf, h2def, Heap.get_set_ne _ _ hxt,
        hAdef, Heap.get_alloc_ne h _ hxf]
    -- decompose the original chain
    rw [linked_append] at hl
    obtain ⟨hl0, hlt⟩ := hl
    obtain ⟨hltp, hltn, -⟩ := hlt
    constructor
    · refine ⟨?_, ?_, ?_, ?_, ?_⟩
      · rw [linked_append]
        refine ⟨?_, ?_⟩
        · rw [linked_append]
          refine ⟨linked_congr hg3x (by simpa using hl0), ?_⟩
          exact ⟨by simp [hg3t, hltp], by simp [hg3t], trivial⟩
        · rw [lastOr_concat]
          exact ⟨by simp [hg3f], by simp [hg3f], trivial⟩
      · rw [hh, headOr_append (as₀ ++ [t]) [h.fresh] none]
        exact headOr_of_ne_nil (by simp) _ _
      · exact (lastOr_concat none (as₀ ++ [t]) h.fresh).symm
      · simp [hlen]
      · exact nodup_concat hnd hfas
    · refine ⟨rfl, ?_, ?_⟩
      · intro a ha
        show a < h.fresh + 1
        rcases List.mem_append.mp ha with ha | ha
        · have := hb _ ha
          omega
        · simp only [List.mem_singleton] at ha
          omega
      · rw [valsOf_append, valsOf_append, valsOf_append]
        have hv0 : valsOf h3 as₀ = valsOf h as₀ :=
          valsOf_congr (fun x hx => by rw [hg3x x hx])
        have hvt : valsOf h3 [t] = valsOf h [t] := by
          simp [hg3t]
        have hvf : valsOf h3 [h.fresh] = [v] := by
          simp [hg3f]
        rw [hv0, hvt, hvf]

theorem push_front_rep [Inhabited T] {h : Heap T} {d : Dequeue T} {as : List Nat}
    (v : T) (hrep : Rep h d as) (hb : ∀ a ∈ as, a < h.fresh) :
    Rep (d.push_front v h).2 (d.push_front v h).1 (h.fresh :: as) ∧
      (d.push_front v h).2.fresh = h.fresh + 1 ∧
      (∀ a ∈ h.fresh :: as, a < (d.push_front v h).2.fresh) ∧
      valsOf (d.push_front v h).2 (h.fresh :: as) = v :: valsOf h as := by
  obtain ⟨hl, hh, ht, hlen, hnd⟩ := hrep
  have hfas : h.fresh ∉ as := fun hmem => absurd (hb _ hmem) (by simp)
  cases as with
  | nil =>
    rw [headOr_nil] at hh
    have hget : (Heap.mk ((h.fresh, (⟨none, none, v⟩ : Node T)) :: h.nodes)
        (h.fresh + 1)).get h.fresh = ⟨none, none, v⟩ := by
      simp [Heap.get, lookupNode]
    have hrun : d.push_front v h =
        (⟨some h.fresh, some h.fresh, d.len + 1⟩,
          ⟨(h.fresh, ⟨none, none, v⟩) :: h.nodes, h.fresh + 1⟩) := by
      simp only [Dequeue.push_front, Heap.alloc, hh]
    rw [hrun]
    refine ⟨⟨⟨?_, ?_, trivial⟩, rfl, rfl, ?_, ?_⟩, rfl, ?_, ?_⟩
    · simp [hget]
    · simp [hget]
    · simp [hlen]
    · simp
    · simp
    · simp [valsOf, hget]
  | cons a₀ as' =>
    rw [headOr_cons] at hh
    have ha0mem : a₀ ∈ a₀ :: as' := by simp
    have ha0f : a₀ ≠ h.fresh := Nat.ne_of_lt (hb _ ha0mem)
    set hA : Heap T := (h.alloc ⟨none, none, v⟩).2 with hAdef
    set h2 : Heap T := hA.set a₀ { hA.get a₀ with prev := some h.fresh } with h2def
    set h3 : Heap T := h2.set h.fresh { h2.get h.fresh with next := some a₀ } with h3def
    have hrun : d.push_front v h = (⟨some h.fresh, d.tail, d.len + 1⟩, h3) := by
      simp only [Dequeue.push_front, hh, h3def, h2def, hAdef, Heap.alloc]
    rw [hrun]
    have hga0 : hA.get a₀ = h.get a₀ := Heap.get_alloc_ne h _ ha0f
    have hgf0 : hA.get h.fresh = ⟨none, none, v⟩ := Heap.get_alloc_self h _
    have hg2f : h2.get h.fresh = ⟨none, none, v⟩ := by
      rw [h2def, Heap.get_set_ne _ _ (Ne.symm ha0f), hgf0]
    have hg3f : h3.get h.fresh = ⟨some a₀, none, v⟩ := by
      rw [h3def, Heap.get_set_self, hg2f]
    have hg3a : h3.get a₀ = { h.get a₀ with prev := some h.fresh } := by
      rw [h3def, Heap.get_set_ne _ _ ha0f, h2def, Heap.get_set_self, hga0]
    have hg3x : ∀ x ∈ as', h3.get x = h.get x := by
      intro x hx
      have hxa : x ≠ a₀ := fun hxa => (List.nodup_cons.mp hnd).1 (hxa ▸ hx)
      have hxf : x ≠ h.fresh := Nat.ne_of_lt (hb _ (by simp [hx]))
      rw [h3def, Heap.get_set_ne _ _ hxf, h2def, Heap.get_set_ne _ _ hxa,
        hAdef, Heap.get_alloc_ne h _ hxf]
    obtain ⟨hpa, hna, hlas⟩ := hl
    refine ⟨⟨⟨?_, ?_, ?_, ?_, ?_⟩, rfl, ?_, ?_, ?_⟩, rfl, ?_, ?_⟩
    · simp [hg3f]
    · simp [hg3f]
    · simp [hg3a]
    · simp [hg3a, hna]
    · exact linked_congr hg3x hlas
    · rw [ht]
      rfl
    · simp [hlen]
    · exact List.nodup_cons.mpr ⟨hfas, hnd⟩
    · intro a ha
      show a < h.fresh + 1
      rcases List.mem_cons.mp ha with ha | ha
      · omega
      · have := hb _ ha
        omega
    · have hv : valsOf h3 (a₀ :: as') = valsOf h (a₀ :: as') := by
        refine valsOf_congr ?_
        intro x hx
        rcases List.mem_cons.mp hx with hx | hx
        · subst hx
          rw [hg3a]
        · rw [hg3x x hx]
      show valsOf h3 (h.fresh :: a₀ :: as') = v :: valsOf h (a₀ :: as')
      rw [valsOf_cons, hv, hg3f]

theorem pop_front_nil [Inhabited T] {h : Heap T} {d : Dequeue T}
    (hrep : Rep h d []) : d.pop_front h = (none, d, h) := by
  obtain ⟨-, hh, -, -, -⟩ := hrep
  rw [headOr_nil] at hh
  simp only [Dequeue.pop_front, hh]

theorem pop_back_nil [Inhabited T] {h : Heap T} {d : Dequeue T}
    (hrep : Rep h d []) : d.pop_back h = (none, d, h) := by
  obtain ⟨-, -, ht, -, -⟩ := hrep
  rw [lastOr_nil] at ht
  simp only [Dequeue.pop_back, ht]

theorem pop_front_cons [Inhabited T] {h : Heap T} {d : Dequeue T} {a₀ : Nat}
    {as' : List Nat} (hrep : Rep h d (a₀ :: as')) :
    (d.pop_front h).1 = some (h.get a₀).value ∧
      Rep (d.pop_front h).2.2 (d.pop_front h).2.1 as' ∧
      (d.pop_front h).2.2.fresh = h.fresh ∧
      valsOf (d.pop_front h).2.2 as' = valsOf h as' := by
  obtain ⟨hl, hh, ht, hlen, hnd⟩ := hrep
  rw [headOr_cons] at hh
  obtain ⟨hp0, hn0, hlas⟩ := hl
  cases as' with
  | nil =>
    rw [headOr_nil] at hn0
    have hrun : d.pop_front h =
        (some (h.get a₀).value, ⟨none, none, d.len - 1⟩, h.free a₀) := by
      simp only [Dequeue.pop_front, hh, hn0]
    rw [hrun]
    exact ⟨rfl, ⟨trivial, rfl, rfl, by simp [hlen], by simp⟩, rfl, rfl⟩
  | cons a₁ as'' =>
    rw [headOr_cons] at hn0
    obtain ⟨hp1, hn1, hlas'⟩ := hlas
    have hne10 : a₁ ≠ a₀ := by
      intro he
      exact (List.nodup_cons.mp hnd).1 (by simp [he])
    have hrun : d.pop_front h =
        (some (h.get a₀).value, ⟨some a₁, d.tail, d.len - 1⟩,
          (h.set a₁ { h.get a₁ with prev := none }).free a₀) := by
      simp only [Dequeue.pop_front, hh, hn0]
    rw [hrun]
    set h' : Heap T := (h.set a₁ { h.get a₁ with prev := none }).free a₀ with hpd
    have hg1 : h'.get a₁ = { h.get a₁ with prev := none } := by
      rw [hpd, Heap.get_free_ne _ hne10, Heap.get_set_self]
    have hgx : ∀ x ∈ as'', h'.get x = h.get x := by
      intro x hx
      have hx1 : x ≠ a₁ := by
        intro he
        exact (List.nodup_cons.mp (List.nodup_cons.mp hnd).2).1 (he ▸ hx)
      have hx0 : x ≠ a₀ := by
        intro he
        exact (List.nodup_cons.mp hnd).1 (by simp [he ▸ hx])
      rw [hpd, Heap.get_free_ne _ hx0, Heap.get_set_ne _ _ hx1]
    refine ⟨rfl, ⟨⟨?_, ?_, ?_⟩, rfl, ?_, ?_, ?_⟩, rfl, ?_⟩
    · simp [hg1]
    · simp [hg1, hn1]
    · exact linked_congr hgx hlas'
    · rw [ht]
      rfl
    · simp [hlen]
    · exact (List.nodup_cons.mp hnd).2
    · refine valsOf_congr ?_
      intro x hx
      rcases List.mem_cons.mp hx with hx | hx
      · subst hx
        rw [hg1]
      · rw [hgx x hx]

theorem pop_back_concat [Inhabited T] {h : Heap T} {d : Dequeue T} {a₀ : Nat}
    {as' : List Nat} (hrep : Rep h d (as' ++ [a₀])) :
    (d.pop_back h).1 = some (h.get a₀).value ∧
      Rep (d.pop_back h).2.2 (d.pop_back h).2.1 as' ∧
      (d.pop_back h).2.2.fresh = h.fresh ∧
      valsOf (d.pop_back h).2.2 as' = valsOf h as' := by
  obtain ⟨hl, hh, ht, hlen, hnd⟩ := hrep
  rw [lastOr_concat] at ht
  rw [linked_append] at hl
  obtain ⟨hl0, hp0, hn0, -⟩ := hl
  rw [headOr_nil] at hn0
  have h0nin : a₀ ∉ as' := by
    intro hmem
    exact (List.disjoint_of_nodup_append hnd) hmem (by simp)
  rcases List.eq_nil_or_concat as' with hcase | ⟨as'', a₁, hcase⟩
  · subst hcase
    rw [lastOr_nil] at hp0
    have hrun : d.pop_back h =
        (some (h.get a₀).value, ⟨none, none, d.len - 1⟩, h.free a₀) := by
      simp only [Dequeue.pop_back, ht, hp0]
    rw [hrun]
    exact ⟨rfl, ⟨trivial, rfl, rfl, by simp [hlen], by simp⟩, rfl, rfl⟩
  · subst hcase
    simp only [List.concat_eq_append] at hl0 hh hlen hnd h0nin hp0 ⊢
    rw [lastOr_concat] at hp0
    have hne10 : a₁ ≠ a₀ := by
      intro he
      exact h0nin (by simp [he.symm])
    have hrun : d.pop_back h =
        (some (h.get a₀).value, ⟨d.head, some a₁, d.len - 1⟩,
          (h.set a₁ { h.get a₁ with next := none }).free a₀) := by
      simp only [Dequeue.pop_back, ht, hp0]
    rw [hrun]
    set h' : Heap T := (h.set a₁ { h.get a₁ with next := none }).free a₀ with hpd
    have hg1 : h'.get a₁ = { h.get a₁ with next := none } := by
      rw [hpd, Heap.get_free_ne _ hne10, Heap.get_set_self]
    have hgx : ∀ x ∈ as'', h'.get x = h.get x := by
      intro x hx
      have hx1 : x ≠ a₁ := by
        intro he
        have hnd1 : (as'' ++ [a₁]).Nodup := (List.nodup_append.mp hnd).1
        exact (List.disjoint_of_nodup_append hnd1) hx (by simp [he])
      have hx0 : x ≠ a₀ := by
        intro he
        exact h0nin (by simp [he ▸ hx])
      rw [hpd, Heap.get_free_ne _ hx0, Heap.get_set_ne _ _ hx1]
    rw [linked_append] at hl0
    obtain ⟨hl00, hp1, hn1, -⟩ := hl0
    refine ⟨rfl, ⟨?_, ?_, ?_, ?_, ?_⟩, rfl, ?_⟩
    · rw [linked_append]
      refine ⟨linked_congr hgx ?_, ?_, ?_, trivial⟩
      · have : headOr [a₁] (headOr [a₀] none) = headOr [a₁] none := rfl
        exact this ▸ hl00
      · rw [hg1]
        exact hp1
      · simp [hg1]
    · rw [hh, headOr_append (as'' ++ [a₁]) [a₀] none]
      exact (headOr_of_ne_nil (by simp) _ _).symm
    · exact (lastOr_concat none as'' a₁).symm
    · simp [hlen]
    · exact (List.nodup_append.mp hnd).1
    · refine valsOf_congr ?_
      intro x hx
      rcases List.mem_append.mp hx with hx | hx
      · rw [hgx x hx]
      · simp only [List.mem_singleton] at hx
        subst hx
        rw [hg1]

/-
Behavioural lemmas: the dequeue against the plain queue model, and the
length accounting under arbitrary pushes and pops.
-/

theorem runDequeue_model [Inhabited T] (ops : List (QOp T)) :
    ∀ (d : Dequeue T) (h : Heap T) (as : List Nat),
      Rep h d as → (∀ a ∈ as, a < h.fresh) →
      runDequeue ops d h = runModel ops (valsOf h as) := by
  induction ops with
  | nil => intro d h as _ _; rfl
  | cons op ops ih =>
    intro d h as hrep hb
    cases op with
    | push v =>
      obtain ⟨hrep', -, hb', hvals⟩ := push_back_rep v hrep hb
      show runDequeue ops (d.push_back v h).1 (d.push_back v h).2 =
        runModel ops (valsOf h as ++ [v])
      rw [← hvals]
      exact ih _ _ _ hrep' hb'
    | pop =>
      cases as with
      | nil =>
        have hrun := pop_front_nil hrep
        show (d.pop_front h).1 ::
            runDequeue ops (d.pop_front h).2.1 (d.pop_front h).2.2 =
          (valsOf h ([] : List Nat)).head? ::
            runModel ops (valsOf h ([] : List Nat)).tail
        rw [hrun]
        show (none : Option T) :: runDequeue ops d h = none :: runModel ops []
        rw [ih d h [] hrep hb]
        rfl
      | cons a₀ as' =>
        obtain ⟨hr, hrep', hfresh, hvals⟩ := pop_front_cons hrep
        have hb' : ∀ a ∈ as', a < (d.pop_front h).2.2.fresh := by
          intro a ha
          rw [hfresh]
          exact hb a (by simp [ha])
        show (d.pop_front h).1 ::
            runDequeue ops (d.pop_front h).2.1 (d.pop_front h).2.2 =
          (valsOf h (a₀ :: as')).head? ::
            runModel ops (valsOf h (a₀ :: as')).tail
        rw [hr, ih _ _ _ hrep' hb', hvals]
        rfl

theorem count_pop_some {x : T} :
    (if (some x).isSome = true then 1 else 0) = 1 := rfl

theorem count_pop_none :
    (if (none : Option T).isSome = true then 1 else 0) = 0 := rfl

theorem runOps_spec [Inhabited T] (ops : List (DOp T)) :
    ∀ (d : Dequeue T) (h : Heap T) (as : List Nat),
      Rep h d as → (∀ a ∈ as, a < h.fresh) →
      ∃ as' : List Nat,
        Rep (runOps ops d h).2.1 (runOps ops d h).1 as' ∧
        (∀ a ∈ as', a < (runOps ops d h).2.1.fresh) ∧
        (runOps ops d h).1.len + (runOps ops d h).2.2 =
          d.len + countPushes ops := by
  induction ops with
  | nil =>
    intro d h as hrep hb
    exact ⟨as, hrep, hb, by simp [runOps, countPushes]⟩
  | cons op ops ih =>
    intro d h as hrep hb
    have hlen0 := hrep.2.2.2.1
    cases op with
    | pushF v =>
      obtain ⟨hrep', -, hb', -⟩ := push_front_rep v hrep hb
      have hlen' := hrep'.2.2.2.1
      obtain ⟨as', h1, h2, h3⟩ :=
        ih (d.push_front v h).1 (d.push_front v h).2 _ hrep' hb'
      refine ⟨as', h1, h2, ?_⟩
      show (runOps ops (d.push_front v h).1 (d.push_front v h).2).1.len +
          (runOps ops (d.push_front v h).1 (d.push_front v h).2).2.2 =
        d.len + countPushes (DOp.pushF v :: ops)
      simp only [List.length_cons] at hlen'
      simp only [countPushes]
      omega
    | pushB v =>
      obtain ⟨hrep', -, hb', -⟩ := push_back_rep v hrep hb
      have hlen' := hrep'.2.2.2.1
      obtain ⟨as', h1, h2, h3⟩ :=
        ih (d.push_back v h).1 (d.push_back v h).2 _ hrep' hb'
      refine ⟨as', h1, h2, ?_⟩
      show (runOps ops (d.push_back v h).1 (d.push_back v h).2).1.len +
          (runOps ops (d.push_back v h).1 (d.push_back v h).2).2.2 =
        d.len + countPushes (DOp.pushB v :: ops)
      simp only [List.length_append, List.length_cons, List.length_nil] at hlen'
      simp only [countPushes]
      omega
    | popF =>
      cases as with
      | nil =>
        have hrun := pop_front_nil hrep
        obtain ⟨as', h1, h2, h3⟩ := ih d h [] hrep hb
        simp only [runOps, hrun, countPushes, count_pop_none]
        simp only [List.length_nil] at hlen0
        exact ⟨as', h1, h2, by omega⟩
      | cons a₀ as₁ =>
        obtain ⟨hr, hrep', hfresh, -⟩ := pop_front_cons hrep
        have hlen' := hrep'.2.2.2.1
        have hb' : ∀ a ∈ as₁, a < (d.pop_front h).2.2.fresh := by
          intro a ha
          rw [hfresh]
          exact hb a (by simp [ha])
        obtain ⟨as', h1, h2, h3⟩ :=
          ih (d.pop_front h).2.1 (d.pop_front h).2.2 _ hrep' hb'
        simp only [runOps, hr, countPushes, count_pop_some]
        simp only [List.length_cons] at hlen0
        exact ⟨as', h1, h2, by omega⟩
    | popB =>
      rcases List.eq_nil_or_concat as with hcase | ⟨as₀, t, hcase⟩
      · subst hcase
        have hrun := pop_back_nil hrep
        obtain ⟨as', h1, h2, h3⟩ := ih d h [] hrep hb
        simp only [runOps, hrun, countPushes, count_pop_none]
        simp only [List.length_nil] at hlen0
        exact ⟨as', h1, h2, by omega⟩
      · subst hcase
        simp only [List.concat_eq_append] at hrep hb hlen0
        obtain ⟨hr, hrep', hfresh, -⟩ := pop_back_concat hrep
        have hlen' := hrep'.2.2.2.1
        have hb' : ∀ a ∈ as₀, a < (d.pop_back h).2.2.fresh := by
          intro a ha
          rw [hfresh]
          exact hb a (by simp [ha])
        obtain ⟨as', h1, h2, h3⟩ :=
          ih (d.pop_back h).2.1 (d.pop_back h).2.2 _ hrep' hb'
        simp only [runOps, hr, countPushes, count_pop_some]
        simp only [List.length_append, List.length_cons, List.length_nil] at hlen0
        exact ⟨as', h1, h2, by omega⟩


/-- C5: for every finite script of push_back and pop_front steps run from
the empty dequeue in the empty heap, the pop_front results coincide with
those of the plain FIFO queue model: values pop out in push order. -/
theorem c5_fifo [Inhabited T] (ops : List (QOp T)) :
    runDequeue ops Dequeue.new (emptyHeap T) = runModel ops [] :=
  runDequeue_model ops Dequeue.new (emptyHeap T) []
    ⟨trivial, rfl, rfl, rfl, List.nodup_nil⟩ (by simp)

/-- C6: after any script of pushes and pops at either end, starting from the
empty dequeue, len equals the number of pushes minus the number of
successful pops, the successful pops never exceed the pushes, and when len
is 0 both pop_front and pop_back return none and leave dequeue and heap
unchanged. -/
theorem c6_len_accounting [Inhabited T] (ops : List (DOp T)) :
    (runOps ops Dequeue.new (emptyHeap T)).2.2 ≤ countPushes ops ∧
    (runOps ops Dequeue.new (emptyHeap T)).1.len =
      countPushes ops - (runOps ops Dequeue.new (emptyHeap T)).2.2 ∧
    ((runOps ops Dequeue.new (emptyHeap T)).1.len = 0 →
      (runOps ops Dequeue.new (emptyHeap T)).1.pop_front
          (runOps ops Dequeue.new (emptyHeap T)).2.1 =
        (none, (runOps ops Dequeue.new (emptyHeap T)).1,
          (runOps ops Dequeue.new (emptyHeap T)).2.1) ∧
      (runOps ops Dequeue.new (emptyHeap T)).1.pop_back
          (runOps ops Dequeue.new (emptyHeap T)).2.1 =
        (none, (runOps ops Dequeue.new (emptyHeap T)).1,
          (runOps ops Dequeue.new (emptyHeap T)).2.1)) := by
  obtain ⟨as', h1, h2, h3⟩ := runOps_spec ops Dequeue.new (emptyHeap T) []
    ⟨trivial, rfl, rfl, rfl, List.nodup_nil⟩ (by simp)
  have hlen := h1.2.2.2.1
  have hnew : (Dequeue.new : Dequeue T).len = 0 := rfl
  rw [hnew] at h3
  refine ⟨by omega, by omega, ?_⟩
  intro h0
  have hnil : as' = [] := by
    rw [h0] at hlen
    exact List.length_eq_zero.mp hlen.symm
  subst hnil
  exact ⟨pop_front_nil h1, pop_back_nil h1⟩

/-
The borrowing iterator yields the values along the chain.
-/

theorem Iter.next_cons [Inhabited T] (h : Heap T) (a : Nat) (tl : Option Nat)
    (n : Nat) :
    Iter.next ⟨some a, tl, n + 1⟩ h =
      (some (h.get a).value, ⟨(h.get a).next, tl, n⟩) := by
  simp [Iter.next]

theorem collect_of_linked [Inhabited T] {h : Heap T} :
    ∀ (as : List Nat) (p : Option Nat) (tl : Option Nat),
      linked h p as none →
      Iter.collect h ⟨headOr as none, tl, as.length⟩ as.length = valsOf h as := by
  intro as
  induction as with
  | nil => intro p tl _; rfl
  | cons a as ih =>
    intro p tl hl
    obtain ⟨-, hn, hl'⟩ := hl
    show Iter.collect h ⟨some a, tl, as.length + 1⟩ (as.length + 1) =
      (h.get a).value :: valsOf h as
    simp only [Iter.collect, Iter.next_cons, hn]
    exact congrArg _ (ih (some a) tl hl')

theorem extend_rep [Inhabited T] (vs : List T) :
    ∀ (d : Dequeue T) (h : Heap T) (as : List Nat),
      Rep h d as → (∀ a ∈ as, a < h.fresh) →
      ∃ bs : List Nat,
        Rep (d.extend vs h).2 (d.extend vs h).1 (as ++ bs) ∧
        (∀ a ∈ as ++ bs, a < (d.extend vs h).2.fresh) ∧
        valsOf (d.extend vs h).2 (as ++ bs) = valsOf h as ++ vs := by
  induction vs with
  | nil =>
    intro d h as hrep hb
    exact ⟨[], by simpa [Dequeue.extend] using hrep,
      by simpa [Dequeue.extend] using hb, by simp [Dequeue.extend]⟩
  | cons v vs ih =>
    intro d h as hrep hb
    obtain ⟨hrep', -, hb', hvals⟩ := push_back_rep v hrep hb
    obtain ⟨bs, h1, h2, h3⟩ :=
      ih (d.push_back v h).1 (d.push_back v h).2 _ hrep' hb'
    have hsplit : as ++ h.fresh :: bs = (as ++ [h.fresh]) ++ bs := by simp
    refine ⟨h.fresh :: bs, ?_, ?_, ?_⟩
    · rw [hsplit]
      exact h1
    · intro a ha
      apply h2
      rw [← hsplit]
      exact ha
    · show valsOf (Dequeue.extend (d.push_back v h).1 vs (d.push_back v h).2).2
          (as ++ h.fresh :: bs) = valsOf h as ++ v :: vs
      rw [hsplit, h3, hvals]
      simp

/-- C10: building a dequeue from a list of values through FromIterator
(extend on a new dequeue, pushing each item at the back in order) and then
iterating it front to back yields exactly the same list, and the resulting
len is the length of the list. -/
theorem c10_from_iter [Inhabited T] (vs : List T) :
    Iter.collect (Dequeue.from_iter vs (emptyHeap T)).2
        (Dequeue.from_iter vs (emptyHeap T)).1.iter
        (Dequeue.from_iter vs (emptyHeap T)).1.len = vs ∧
    (Dequeue.from_iter vs (emptyHeap T)).1.len = vs.length := by
  obtain ⟨bs, h1, h2, h3⟩ := extend_rep vs Dequeue.new (emptyHeap T) []
    ⟨trivial, rfl, rfl, rfl, List.nodup_nil⟩ (by simp)
  simp only [List.nil_append] at h1 h3
  simp only [valsOf_nil, List.nil_append] at h3
  obtain ⟨hl, hh, ht, hlen, hnd⟩ := h1
  have hlenvs : bs.length = vs.length := by
    have := congrArg List.length h3
    simpa [valsOf] using this
  simp only [Dequeue.from_iter]
  constructor
  · have hit : (Dequeue.extend Dequeue.new vs (emptyHeap T)).1.iter =
        ⟨headOr bs none, (Dequeue.extend Dequeue.new vs (emptyHeap T)).1.tail,
          bs.length⟩ := by
      simp only [Dequeue.iter, hh, hlen]
    rw [hit, hlen, collect_of_linked bs none _ hl, h3]
  · rw [hlen, hlenvs]



/-
The vector claims.
-/

/-- C9: inserting at the index equal to the current length produces exactly
the state push produces: the raw copy moves zero slots and the value lands
in slot len. -/
theorem c9_insert_at_len (v : Vector T) (x : T) :
    v.insert v.len x = some (v.push x) := by
  by_cases hlc : v.len = v.cap
  · simp [Vector.insert, Vector.push, ptrCopy, hlc]
  · simp [Vector.insert, Vector.push, ptrCopy, hlc, Ne.symm hlc]

/-- C1: evaluating Vector::remove at the failing input.  remove 1 on the
vector [1, 99, 3] (capacity 4 after three pushes) returns 99, but the
resulting vector keeps len = 3 — the source never decrements len — and its
slot 2 is a copy of the unwritten slot 3; the claim expects len 2 and the
elements [1, 3]. -/
theorem c1_remove_eval :
    exVec.remove 1 = some (some 99, ⟨[some 1, some 3, none, none], 3⟩) ∧
      (exVec.remove 1).map (fun p => p.2.len) = some 3 ∧
      ¬ (exVec.remove 1).map (fun p => p.2.len) = some 2 := by
  refine ⟨by decide, by decide, by decide⟩

theorem rawRead_drop (slots : List (Option T)) :
    ∀ start, start < slots.length →
      slots.drop start = rawRead slots start :: slots.drop (start + 1) := by
  induction slots with
  | nil =>
    intro start h
    simp at h
  | cons o rest ih =>
    intro start h
    cases start with
    | zero => simp [rawRead]
    | succ n =>
      simp only [List.drop_succ_cons]
      rw [ih n (by simpa using h)]
      rfl

theorem drain_collect_eq [Inhabited T] (slots : List (Option T)) :
    ∀ (fuel start : Nat), fuel = slots.length - start →
      Drain.collect ⟨⟨slots, start, slots.length⟩⟩ fuel =
        (slots.drop start).map (fun o => o.getD default) := by
  intro fuel
  induction fuel with
  | zero =>
    intro start hf
    have hle : slots.length ≤ start := by omega
    rw [List.drop_eq_nil_of_le hle]
    rfl
  | succ fuel ih =>
    intro start hf
    have hlt : start < slots.length := by omega
    have hne : start ≠ slots.length := Nat.ne_of_lt hlt
    have hstep : (slots.drop start).map (fun o => o.getD default) =
        ((rawRead slots start).getD default) ::
          (slots.drop (start + 1)).map (fun o => o.getD default) := by
      rw [rawRead_drop slots start hlt]
      rfl
    rw [hstep]
    simp only [Drain.collect, Drain.next, RawIter.next, if_neg hne]
    exact congrArg _ (ih (start + 1) (by omega))

/-- C7: for a well formed vector, drain resets len to 0 at once — before any
element of the sequence is consumed — and fully consuming the returned
sequence front to back yields exactly the elements the vector held, in
their original order. -/
theorem c7_drain_roundtrip [Inhabited T] (v : Vector T) (hwf : v.WF) :
    (v.drain).2.len = 0 ∧ Drain.collect (v.drain).1 v.len = v.elems := by
  refine ⟨rfl, ?_⟩
  have hlen : (v.buf.take v.len).length = v.len := by
    rw [List.length_take]
    exact Nat.min_eq_left hwf.1
  have hcall := drain_collect_eq (v.buf.take v.len) v.len 0
    (by rw [Nat.sub_zero, hlen])
  show Drain.collect ⟨⟨v.buf.take v.len, 0, (v.buf.take v.len).length⟩⟩ v.len =
    v.elems
  rw [hcall]
  simp [Vector.elems]

/-- Witness for C7: the vector [1, 99, 3] is well formed; draining it
empties it at once and collecting gives back [1, 99, 3]. -/
theorem c7_witness :
    exVec.WF ∧
      ((exVec.drain).2.len = 0 ∧
        Drain.collect (exVec.drain).1 exVec.len = exVec.elems) :=
  ⟨⟨by decide, by decide⟩, c7_drain_roundtrip exVec ⟨by decide, by decide⟩⟩



/-
The split operations.
-/

/-- C2 amended: at a cursor on the node at index i, split_before returns to
the caller the dequeue of the i elements from the old head to the
predecessor of the current node (head = old head, tail = predecessor link,
len = i), while the cursor keeps the chain from the current node to the old
tail (head = current, tail = old tail, len = old_len - i) and its index
resets to 0.  For i = 0 the returned dequeue has len 0 but its head field
keeps the stale old head pointer, so its chain form is only claimed for
1 <= i. -/
theorem c2_split_before_amended [Inhabited T] (h : Heap T) (d : Dequeue T)
    (as : List Nat) (i cur : Nat) (hrep : Rep h d as)
    (hcur : as[i]? = some cur) :
    (CursorMut.split_before ⟨some cur, d, some i⟩ h).1.head = d.head ∧
    (CursorMut.split_before ⟨some cur, d, some i⟩ h).1.tail =
      lastOr none (as.take i) ∧
    (CursorMut.split_before ⟨some cur, d, some i⟩ h).1.len = i ∧
    (CursorMut.split_before ⟨some cur, d, some i⟩ h).2.1.index = some 0 ∧
    (CursorMut.split_before ⟨some cur, d, some i⟩ h).2.1.dequeue =
      ⟨some cur, d.tail, as.length - i⟩ ∧
    Rep (CursorMut.split_before ⟨some cur, d, some i⟩ h).2.2
      (CursorMut.split_before ⟨some cur, d, some i⟩ h).2.1.dequeue
      (as.drop i) ∧
    valsOf (CursorMut.split_before ⟨some cur, d, some i⟩ h).2.2 (as.drop i) =
      (valsOf h as).drop i ∧
    (1 ≤ i →
      Rep (CursorMut.split_before ⟨some cur, d, some i⟩ h).2.2
        (CursorMut.split_before ⟨some cur, d, some i⟩ h).1 (as.take i) ∧
      valsOf (CursorMut.split_before ⟨some cur, d, some i⟩ h).2.2
          (as.take i) =
        (valsOf h as).take i) := by
  obtain ⟨hl, hh, ht, hlen, hnd⟩ := hrep
  have hi : i < as.length := lt_length_of_getElem as i cur hcur
  have hdrop : as.drop i = cur :: as.drop (i + 1) :=
    drop_eq_cons_of_getElem as i cur hcur
  have htlen : (as.take i).length = i := by
    rw [List.length_take]
    exact Nat.min_eq_left (Nat.le_of_lt hi)
  have hsplit : as.take i ++ as.drop i = as := List.take_append_drop i as
  have hl2 := (linked_append h none (as.take i) none (as.drop i)).mp
    (by rw [hsplit]; exact hl)
  obtain ⟨hlA, hlB⟩ := hl2
  rw [hdrop, headOr_cons] at hlA
  have hlB' := hlB
  rw [hdrop] at hlB'
  obtain ⟨hcp, hcn, hlB''⟩ := hlB'
  have hndsplit := hnd
  rw [← hsplit, List.nodup_append] at hndsplit
  obtain ⟨hndT, hndD, hdisj⟩ := hndsplit
  have hcurD : cur ∈ as.drop i := by rw [hdrop]; simp
  have htail2 : lastOr none as = lastOr none (as.drop i) := by
    conv_lhs => rw [← hsplit]
    rw [lastOr_append]
    exact lastOr_of_ne_nil (by rw [hdrop]; simp) _ _
  rcases Nat.eq_zero_or_pos i with hi0 | hi1
  · -- cursor on the head node: prev is none, the heap is untouched
    subst hi0
    rw [List.take_zero, lastOr_nil] at hcp
    have hrun : CursorMut.split_before ⟨some cur, d, some 0⟩ h =
        (⟨d.head, none, d.len - (d.len - 0)⟩,
          ⟨some cur, ⟨some cur, d.tail, d.len - 0⟩, some 0⟩, h) := by
      simp only [CursorMut.split_before, Option.getD_some, hcp]
    rw [hrun]
    have hhead : headOr as none = some cur := by
      rw [← hsplit, List.take_zero, List.nil_append, hdrop, headOr_cons]
    refine ⟨rfl, by simp, by simp, rfl, by simp [hlen], ?_, ?_, ?_⟩
    · refine ⟨?_, ?_, ?_, ?_, ?_⟩
      · rw [List.drop_zero]
        exact hl
      · rw [List.drop_zero, hhead]
      · rw [List.drop_zero, ht]
      · simp [hlen]
      · rw [List.drop_zero]
        exact hnd
    · rw [List.drop_zero, List.drop_zero]
    · intro habs
      omega
  · -- cursor past the head: the link to the predecessor is severed
    have htne : as.take i ≠ [] := by
      intro he
      rw [he] at htlen
      simp at htlen
      omega
    rcases List.eq_nil_or_concat (as.take i) with htake | ⟨A₀, p, htake⟩
    · exact absurd htake htne
    rw [List.concat_eq_append] at htake
    rw [htake, lastOr_concat] at hcp
    have hpT : p ∈ as.take i := by rw [htake]; simp
    have hpc : p ≠ cur := fun he => (hdisj hpT) (he ▸ hcurD)
    set h1 : Heap T := h.set cur { h.get cur with prev := none } with h1def
    set h' : Heap T := h1.set p { h1.get p with next := none } with hpd
    have hrun : CursorMut.split_before ⟨some cur, d, some i⟩ h =
        (⟨d.head, some p, d.len - (d.len - i)⟩,
          ⟨some cur, ⟨some cur, d.tail, d.len - i⟩, some 0⟩, h') := by
      simp only [CursorMut.split_before, Option.getD_some, hcp, hpd, h1def]
    rw [hrun]
    have hg1p : h1.get p = h.get p := by
      rw [h1def, Heap.get_set_ne _ _ hpc]
    have hgc : h'.get cur = { h.get cur with prev := none } := by
      rw [hpd, Heap.get_set_ne _ _ (Ne.symm hpc), h1def, Heap.get_set_self]
    have hgp : h'.get p = { h.get p with next := none } := by
      rw [hpd, Heap.get_set_self, hg1p]
    have hgx : ∀ x, x ≠ cur → x ≠ p → h'.get x = h.get x := by
      intro x hx1 hx2
      rw [hpd, Heap.get_set_ne _ _ hx2, h1def, Heap.get_set_ne _ _ hx1]
    have hval : ∀ x ∈ as, (h'.get x).value = (h.get x).value := by
      intro x hx
      by_cases hx1 : x = cur
      · subst hx1
        rw [hgc]
      · by_cases hx2 : x = p
        · subst hx2
          rw [hgp]
        · rw [hgx x hx1 hx2]
    have hkept : Rep h' (⟨some cur, d.tail, d.len - i⟩ : Dequeue T)
        (as.drop i) := by
      refine ⟨?_, ?_, ?_, ?_, ?_⟩
      · rw [hdrop]
        refine ⟨by simp [hgc], by simp [hgc, hcn], ?_⟩
        refine linked_congr ?_ hlB''
        intro x hx
        have hxD : x ∈ as.drop i := by rw [hdrop]; simp [hx]
        have hx1 : x ≠ cur := by
          intro he
          rw [hdrop] at hndD
          exact (List.nodup_cons.mp hndD).1 (he ▸ hx)
        have hx2 : x ≠ p := fun he => (hdisj hpT) (he ▸ hxD)
        exact hgx x hx1 hx2
      · rw [hdrop, headOr_cons]
      · rw [ht]
        exact htail2
      · simp [hlen]
      · exact hndD
    have hout : Rep h' (⟨d.head, some p, d.len - (d.len - i)⟩ : Dequeue T)
        (as.take i) := by
      have hlA2 := hlA
      rw [htake] at hlA2
      have hl3 := (linked_append h (some cur) A₀ none [p]).mp hlA2
      obtain ⟨hlA0, hpp, hpn, -⟩ := hl3
      refine ⟨?_, ?_, ?_, ?_, ?_⟩
      · rw [htake, linked_append]
        refine ⟨?_, ?_, ?_, trivial⟩
        · refine linked_congr ?_ hlA0
          intro x hx
          have hxT : x ∈ as.take i := by rw [htake]; simp [hx]
          have hx1 : x ≠ cur := fun he => (hdisj hxT) (he ▸ hcurD)
          have hx2 : x ≠ p := by
            intro he
            rw [htake] at hndT
            exact (List.disjoint_of_nodup_append hndT) hx (by simp [he])
          exact hgx x hx1 hx2
        · rw [hgp]
          exact hpp
        · simp [hgp]
      · show d.head = headOr (as.take i) none
        rw [hh]
        conv_lhs => rw [← hsplit]
        rw [headOr_append]
        exact headOr_of_ne_nil htne _ _
      · show (some p : Option Nat) = lastOr none (as.take i)
        rw [htake, lastOr_concat]
      · show d.len - (d.len - i) = (as.take i).length
        rw [htlen]
        omega
      · exact hndT
    refine ⟨rfl, ?_, ?_, rfl, ?_, hkept, ?_, ?_⟩
    · show (some p : Option Nat) = lastOr none (as.take i)
      rw [htake, lastOr_concat]
    · show d.len - (d.len - i) = i
      omega
    · show (⟨some cur, d.tail, d.len - i⟩ : Dequeue T) =
        ⟨some cur, d.tail, as.length - i⟩
      rw [hlen]
    · rw [valsOf_congr (fun x hx => hval x (List.drop_subset i as hx)),
        valsOf_drop]
    · intro h1i
      refine ⟨hout, ?_⟩
      rw [valsOf_congr (fun x hx => hval x (List.take_subset i as hx)),
        valsOf_take]



theorem take_succ_of_getElem {α : Type} :
    ∀ (as : List α) (i : Nat) (c : α), as[i]? = some c →
      as.take (i + 1) = as.take i ++ [c] := by
  intro as
  induction as with
  | nil =>
    intro i c hc
    simp at hc
  | cons a as ih =>
    intro i c hc
    cases i with
    | zero =>
      simp at hc
      simp [hc]
    | succ n =>
      simp only [List.getElem?_cons_succ] at hc
      simp only [List.take_succ_cons]
      rw [ih n c hc]
      rfl

/-- C8: at a cursor on the node at index i, split_after keeps the first
i + 1 elements with the cursor (head unchanged, tail = current node,
len = i + 1, index still i) and returns a new dequeue with head = the old
successor of the current node, tail = the old tail field and
len = old_len - (i + 1), holding exactly the remaining elements (as a well
formed chain whenever any remain). -/
theorem c8_split_after [Inhabited T] (h : Heap T) (d : Dequeue T)
    (as : List Nat) (i cur : Nat) (hrep : Rep h d as)
    (hcur : as[i]? = some cur) :
    (CursorMut.split_after ⟨some cur, d, some i⟩ h).2.1.dequeue.head =
      d.head ∧
    (CursorMut.split_after ⟨some cur, d, some i⟩ h).2.1.dequeue.tail =
      some cur ∧
    (CursorMut.split_after ⟨some cur, d, some i⟩ h).2.1.dequeue.len = i + 1 ∧
    (CursorMut.split_after ⟨some cur, d, some i⟩ h).2.1.index = some i ∧
    Rep (CursorMut.split_after ⟨some cur, d, some i⟩ h).2.2
      (CursorMut.split_after ⟨some cur, d, some i⟩ h).2.1.dequeue
      (as.take (i + 1)) ∧
    valsOf (CursorMut.split_after ⟨some cur, d, some i⟩ h).2.2
        (as.take (i + 1)) =
      (valsOf h as).take (i + 1) ∧
    (CursorMut.split_after ⟨some cur, d, some i⟩ h).1.head =
      (h.get cur).next ∧
    (CursorMut.split_after ⟨some cur, d, some i⟩ h).1.tail = d.tail ∧
    (CursorMut.split_after ⟨some cur, d, some i⟩ h).1.len =
      as.length - (i + 1) ∧
    valsOf (CursorMut.split_after ⟨some cur, d, some i⟩ h).2.2
        (as.drop (i + 1)) =
      (valsOf h as).drop (i + 1) ∧
    (i + 1 < as.length →
      Rep (CursorMut.split_after ⟨some cur, d, some i⟩ h).2.2
        (CursorMut.split_after ⟨some cur, d, some i⟩ h).1
        (as.drop (i + 1))) := by
  obtain ⟨hl, hh, ht, hlen, hnd⟩ := hrep
  have hi : i < as.length := lt_length_of_getElem as i cur hcur
  have hdrop : as.drop i = cur :: as.drop (i + 1) :=
    drop_eq_cons_of_getElem as i cur hcur
  have htake1 : as.take (i + 1) = as.take i ++ [cur] :=
    take_succ_of_getElem as i cur hcur
  have htlen : (as.take i).length = i := by
    rw [List.length_take]
    exact Nat.min_eq_left (Nat.le_of_lt hi)
  have hsplit : as.take i ++ as.drop i = as := List.take_append_drop i as
  have hsplit1 : as.take (i + 1) ++ as.drop (i + 1) = as :=
    List.take_append_drop (i + 1) as
  have hl2 := (linked_append h none (as.take i) none (as.drop i)).mp
    (by rw [hsplit]; exact hl)
  obtain ⟨hlA, hlB⟩ := hl2
  rw [hdrop, headOr_cons] at hlA
  have hlB' := hlB
  rw [hdrop] at hlB'
  obtain ⟨hcp, hcn, hlB''⟩ := hlB'
  have hndsplit := hnd
  rw [← hsplit, List.nodup_append] at hndsplit
  obtain ⟨hndT, hndD, hdisj⟩ := hndsplit
  have hcurD : cur ∈ as.drop i := by rw [hdrop]; simp
  have hcurT : cur ∉ as.take i := fun hmem => (hdisj hmem) hcurD
  have hndD' := hndD
  rw [hdrop, List.nodup_cons] at hndD'
  obtain ⟨hcurD1, hndD1⟩ := hndD'
  have hkeptnd : (as.take (i + 1)).Nodup := by
    rw [htake1]
    exact nodup_concat hndT hcurT
  have hkeptlen : (as.take (i + 1)).length = i + 1 := by
    rw [htake1, List.length_append, htlen]
    rfl
  have hkepttail : (lastOr none (as.take (i + 1)) : Option Nat) = some cur := by
    rw [htake1, lastOr_concat]
  have hkepthead : d.head = headOr (as.take (i + 1)) none := by
    rw [hh]
    conv_lhs => rw [← hsplit1]
    rw [headOr_append]
    exact headOr_of_ne_nil (by rw [htake1]; simp) _ _
  cases hB : as.drop (i + 1) with
  | nil =>
    rw [hB, headOr_nil] at hcn
    have htakeAll : as.take (i + 1) = as := by
      have := hsplit1
      rw [hB, List.append_nil] at this
      exact this
    have hlenAll : as.length = i + 1 := by
      have hd := List.length_drop (i + 1) as
      rw [hB] at hd
      simp at hd
      omega
    have hrun : CursorMut.split_after ⟨some cur, d, some i⟩ h =
        (⟨none, d.tail, d.len - (i + 1)⟩,
          ⟨some cur, ⟨d.head, some cur, i + 1⟩, some i⟩, h) := by
      simp only [CursorMut.split_after, Option.getD_some, hcn]
    rw [hrun]
    refine ⟨rfl, rfl, rfl, rfl, ?_, ?_, hcn.symm, rfl, ?_, ?_, ?_⟩
    · refine ⟨?_, ?_, ?_, ?_, hkeptnd⟩
      · rw [htakeAll]
        exact hl
      · exact hkepthead
      · rw [← hkepttail]
      · rw [hkeptlen]
    · rw [valsOf_take]
    · show d.len - (i + 1) = as.length - (i + 1)
      rw [hlen]
    · rw [← valsOf_drop, hB]
    · intro habs
      omega
  | cons b B' =>
    rw [hB, headOr_cons] at hcn
    have hlB3 := hlB''
    rw [hB] at hlB3
    obtain ⟨hbp, hbn, hlB4⟩ := hlB3
    have hbD1 : b ∈ as.drop (i + 1) := by rw [hB]; simp
    have hbD : b ∈ as.drop i := by rw [hdrop]; simp [hbD1]
    have hbc : b ≠ cur := fun he => hcurD1 (he ▸ hbD1)
    have hbT : b ∉ as.take i := fun hmem => (hdisj hmem) hbD
    set h1 : Heap T := h.set cur { h.get cur with next := none } with h1def
    set h' : Heap T := h1.set b { h1.get b with prev := none } with hpd
    have hrun : CursorMut.split_after ⟨some cur, d, some i⟩ h =
        (⟨some b, d.tail, d.len - (i + 1)⟩,
          ⟨some cur, ⟨d.head, some cur, i + 1⟩, some i⟩, h') := by
      simp only [CursorMut.split_after, Option.getD_some, hcn, hpd, h1def]
    rw [hrun]
    have hg1b : h1.get b = h.get b := by
      rw [h1def, Heap.get_set_ne _ _ hbc]
    have hgc : h'.get cur = { h.get cur with next := none } := by
      rw [hpd, Heap.get_set_ne _ _ (Ne.symm hbc), h1def, Heap.get_set_self]
    have hgb : h'.get b = { h.get b with prev := none } := by
      rw [hpd, Heap.get_set_self, hg1b]
    have hgx : ∀ x, x ≠ cur → x ≠ b → h'.get x = h.get x := by
      intro x hx1 hx2
      rw [hpd, Heap.get_set_ne _ _ hx2, h1def, Heap.get_set_ne _ _ hx1]
    have hval : ∀ x ∈ as, (h'.get x).value = (h.get x).value := by
      intro x hx
      by_cases hx1 : x = cur
      · subst hx1
        rw [hgc]
      · by_cases hx2 : x = b
        · subst hx2
          rw [hgb]
        · rw [hgx x hx1 hx2]
    refine ⟨rfl, rfl, rfl, rfl, ?_, ?_, hcn.symm, rfl, ?_, ?_, ?_⟩
    · refine ⟨?_, hkepthead, hkepttail.symm, hkeptlen.symm, hkeptnd⟩
      rw [htake1, linked_append]
      refine ⟨?_, ?_, ?_, trivial⟩
      · refine linked_congr ?_ hlA
        intro x hx
        have hx1 : x ≠ cur := fun he => hcurT (he ▸ hx)
        have hx2 : x ≠ b := fun he => hbT (he ▸ hx)
        exact hgx x hx1 hx2
      · rw [hgc]
        exact hcp
      · simp [hgc]
    · rw [valsOf_congr (fun x hx => hval x (List.take_subset (i + 1) as hx)),
        valsOf_take]
    · show d.len - (i + 1) = as.length - (i + 1)
      rw [hlen]
    · rw [← hB,
        valsOf_congr (fun x hx => hval x (List.drop_subset (i + 1) as hx)),
        valsOf_drop]
    · intro h1i
      refine ⟨?_, ?_, ?_, ?_, ?_⟩
      · refine ⟨by simp [hgb], by simp [hgb, hbn], ?_⟩
        refine linked_congr ?_ hlB4
        intro x hx
        have hxD1 : x ∈ as.drop (i + 1) := by rw [hB]; simp [hx]
        have hx1 : x ≠ cur := fun he => hcurD1 (he ▸ hxD1)
        have hx2 : x ≠ b := by
          intro he
          rw [hB] at hndD1
          exact (List.nodup_cons.mp hndD1).1 (he ▸ hx)
        exact hgx x hx1 hx2
      · rfl
      · show d.tail = lastOr none (b :: B')
        rw [← hB, ht]
        conv_lhs => rw [← hsplit1]
        rw [lastOr_append]
        exact lastOr_of_ne_nil (by rw [hB]; simp) _ _
      · show d.len - (i + 1) = (b :: B').length
        rw [← hB, List.length_drop, hlen]
      · rw [hB] at hndD1
        exact hndD1



/-
The splice operations at the ghost position.
-/

/-- C3 amended: with the cursor at the ghost position over a non-empty
dequeue and a non-empty input, splice_before attaches the input chain at
the tail side — the resulting sequence is the original elements followed by
the input elements — while splice_after attaches it at the head side — the
input elements followed by the original ones.  This matches the peek
semantics: at the ghost position the element before the cursor is the tail
and the element after it is the head. -/
theorem c3_splice_ghost_amended [Inhabited T] (h : Heap T)
    (d other : Dequeue T) (as bs : List Nat) (hrd : Rep h d as)
    (hro : Rep h other bs) (hdne : as ≠ []) (hone : bs ≠ [])
    (hdisj : ∀ a ∈ as, a ∉ bs) :
    (Rep (CursorMut.splice_before ⟨none, d, none⟩ other h).2
      (CursorMut.splice_before ⟨none, d, none⟩ other h).1.dequeue
      (as ++ bs) ∧
    valsOf (CursorMut.splice_before ⟨none, d, none⟩ other h).2 (as ++ bs) =
      valsOf h as ++ valsOf h bs) ∧
    (Rep (CursorMut.splice_after ⟨none, d, none⟩ other h).2
      (CursorMut.splice_after ⟨none, d, none⟩ other h).1.dequeue
      (bs ++ as) ∧
    valsOf (CursorMut.splice_after ⟨none, d, none⟩ other h).2 (bs ++ as) =
      valsOf h bs ++ valsOf h as) := by
  obtain ⟨hld, hhd, htd, hlend, hndd⟩ := hrd
  obtain ⟨hlo, hho, hto, hleno, hndo⟩ := hro
  obtain ⟨a₀, as₁, hasc⟩ := List.exists_cons_of_ne_nil hdne
  obtain ⟨b₀, bs₁, hbsc⟩ := List.exists_cons_of_ne_nil hone
  rcases List.eq_nil_or_concat as with he | ⟨A₀, t, hA⟩
  · exact absurd he hdne
  rcases List.eq_nil_or_concat bs with he | ⟨B₀, bz, hB⟩
  · exact absurd he hone
  rw [List.concat_eq_append] at hA hB
  have hhd2 : d.head = some a₀ := by rw [hhd, hasc, headOr_cons]
  have hho2 : other.head = some b₀ := by rw [hho, hbsc, headOr_cons]
  have htd2 : d.tail = some t := by rw [htd, hA, lastOr_concat]
  have hto2 : other.tail = some bz := by rw [hto, hB, lastOr_concat]
  have hoe : ¬ other.is_empty = true := by
    simp only [Dequeue.is_empty, decide_eq_true_eq, hleno, hbsc]
    simp
  have hde : ¬ d.is_empty = true := by
    simp only [Dequeue.is_empty, decide_eq_true_eq, hlend, hasc]
    simp
  have hta : t ∈ as := by rw [hA]; simp
  have ha0 : a₀ ∈ as := by rw [hasc]; simp
  have hbza : bz ∈ bs := by rw [hB]; simp
  have hb0a : b₀ ∈ bs := by rw [hbsc]; simp
  have hndA : t ∉ A₀ := by
    have := hndd
    rw [hA, List.nodup_append] at this
    exact fun hmem => (this.2.2 hmem) (by simp)
  have hndB : bz ∉ B₀ := by
    have := hndo
    rw [hB, List.nodup_append] at this
    exact fun hmem => (this.2.2 hmem) (by simp)
  have hnda : a₀ ∉ as₁ := by
    have := hndd
    rw [hasc, List.nodup_cons] at this
    exact this.1
  have hndb : b₀ ∉ bs₁ := by
    have := hndo
    rw [hbsc, List.nodup_cons] at this
    exact this.1
  have hvalpre : ∀ (g : Heap T), (∀ x ∈ as ++ bs, (g.get x).value = (h.get x).value) →
      valsOf g (as ++ bs) = valsOf h as ++ valsOf h bs := by
    intro g hg
    rw [valsOf_congr hg, valsOf_append]
  have hvalpre' : ∀ (g : Heap T), (∀ x ∈ bs ++ as, (g.get x).value = (h.get x).value) →
      valsOf g (bs ++ as) = valsOf h bs ++ valsOf h as := by
    intro g hg
    rw [valsOf_congr hg, valsOf_append]
  constructor
  · -- splice_before at the ghost: append at the tail
    set g1 : Heap T := h.set t { h.get t with next := some b₀ } with g1def
    set g2 : Heap T := g1.set b₀ { g1.get b₀ with prev := some t } with g2def
    have htb0 : t ≠ b₀ := fun he => (hdisj t hta) (he ▸ hb0a)
    have hrun : CursorMut.splice_before ⟨none, d, none⟩ other h =
        (⟨none, ⟨d.head, some bz, d.len + other.len⟩, none⟩, g2) := by
      simp only [CursorMut.splice_before]
      rw [if_neg hoe, if_neg hde]
      simp only [hho2, hto2, htd2, Option.getD_some, g2def, g1def]
    rw [hrun]
    have hg2t : g2.get t = { h.get t with next := some b₀ } := by
      rw [g2def, Heap.get_set_ne _ _ htb0, g1def, Heap.get_set_self]
    have hg2b : g2.get b₀ = { h.get b₀ with prev := some t } := by
      rw [g2def, Heap.get_set_self, g1def, Heap.get_set_ne _ _ (Ne.symm htb0)]
    have hgx : ∀ x, x ≠ t → x ≠ b₀ → g2.get x = h.get x := by
      intro x hx1 hx2
      rw [g2def, Heap.get_set_ne _ _ hx2, g1def, Heap.get_set_ne _ _ hx1]
    have hval : ∀ x ∈ as ++ bs, (g2.get x).value = (h.get x).value := by
      intro x hx
      by_cases hx1 : x = t
      · subst hx1
        rw [hg2t]
      · by_cases hx2 : x = b₀
        · subst hx2
          rw [hg2b]
        · rw [hgx x hx1 hx2]
    refine ⟨⟨?_, ?_, ?_, ?_, ?_⟩, hvalpre g2 hval⟩
    · rw [linked_append]
      constructor
      · rw [hA, linked_append]
        have hlds := hld
        rw [hA, linked_append] at hlds
        obtain ⟨hlA0, htp, htn, -⟩ := hlds
        refine ⟨?_, ?_, ?_, trivial⟩
        · refine linked_congr ?_ hlA0
          intro x hx
          have hx1 : x ≠ t := fun he => hndA (he ▸ hx)
          have hx2 : x ≠ b₀ := fun he =>
            (hdisj x (by rw [hA]; simp [hx])) (he ▸ hb0a)
          exact hgx x hx1 hx2
        · simp [hg2t, htp]
        · simp [hg2t, hbsc]
      · rw [hbsc]
        have hlos := hlo
        rw [hbsc] at hlos
        obtain ⟨hbp, hbn, hlbs⟩ := hlos
        refine ⟨?_, ?_, ?_⟩
        · rw [hg2b, hA, lastOr_concat]
        · rw [hg2b]
          exact hbn
        · refine linked_congr ?_ hlbs
          intro x hx
          have hxb : x ∈ bs := by rw [hbsc]; simp [hx]
          have hx1 : x ≠ t := fun he => (hdisj t hta) (he ▸ hxb)
          have hx2 : x ≠ b₀ := fun he => hndb (he ▸ hx)
          exact hgx x hx1 hx2
    · rw [hhd, headOr_append]
      exact headOr_of_ne_nil hdne _ _
    · rw [lastOr_append]
      rw [lastOr_of_ne_nil hone (lastOr none as) none, hB, lastOr_concat]
    · simp [hlend, hleno]
    · rw [List.nodup_append]
      exact ⟨hndd, hndo, fun a ha => hdisj a ha⟩
  · -- splice_after at the ghost: attach ahead of the old head
    set g1 : Heap T := h.set a₀ { h.get a₀ with prev := some bz } with g1def
    set g2 : Heap T := g1.set bz { g1.get bz with next := some a₀ } with g2def
    have habz : a₀ ≠ bz := fun he => (hdisj a₀ ha0) (he ▸ hbza)
    have hrun : CursorMut.splice_after ⟨none, d, none⟩ other h =
        (⟨none, ⟨some b₀, d.tail, d.len + other.len⟩, none⟩, g2) := by
      simp only [CursorMut.splice_after]
      rw [if_neg hoe, if_neg hde]
      simp only [hho2, hto2, hhd2, Option.getD_some, g2def, g1def]
    rw [hrun]
    have hg2a : g2.get a₀ = { h.get a₀ with prev := some bz } := by
      rw [g2def, Heap.get_set_ne _ _ habz, g1def, Heap.get_set_self]
    have hg2z : g2.get bz = { h.get bz with next := some a₀ } := by
      rw [g2def, Heap.get_set_self, g1def, Heap.get_set_ne _ _ (Ne.symm habz)]
    have hgx : ∀ x, x ≠ a₀ → x ≠ bz → g2.get x = h.get x := by
      intro x hx1 hx2
      rw [g2def, Heap.get_set_ne _ _ hx2, g1def, Heap.get_set_ne _ _ hx1]
    have hval : ∀ x ∈ bs ++ as, (g2.get x).value = (h.get x).value := by
      intro x hx
      by_cases hx1 : x = a₀
      · subst hx1
        rw [hg2a]
      · by_cases hx2 : x = bz
        · subst hx2
          rw [hg2z]
        · rw [hgx x hx1 hx2]
    refine ⟨⟨?_, ?_, ?_, ?_, ?_⟩, hvalpre' g2 hval⟩
    · rw [linked_append]
      constructor
      · rw [hB, linked_append]
        have hlos := hlo
        rw [hB, linked_append] at hlos
        obtain ⟨hlB0, hzp, hzn, -⟩ := hlos
        refine ⟨?_, ?_, ?_, trivial⟩
        · refine linked_congr ?_ hlB0
          intro x hx
          have hx2 : x ≠ bz := fun he => hndB (he ▸ hx)
          have hx1 : x ≠ a₀ := fun he =>
            (hdisj a₀ ha0) (he ▸ (by rw [hB]; simp [hx] : x ∈ bs))
          exact hgx x hx1 hx2
        · simp [hg2z, hzp]
        · simp [hg2z, hasc]
      · rw [hasc]
        have hlds := hld
        rw [hasc] at hlds
        obtain ⟨hap, han, hlas⟩ := hlds
        refine ⟨?_, ?_, ?_⟩
        · rw [hg2a, hB, lastOr_concat]
        · rw [hg2a]
          exact han
        · refine linked_congr ?_ hlas
          intro x hx
          have hxa : x ∈ as := by rw [hasc]; simp [hx]
          have hx1 : x ≠ a₀ := fun he => hnda (he ▸ hx)
          have hx2 : x ≠ bz := fun he => (hdisj x hxa) (he ▸ hbza)
          exact hgx x hx1 hx2
    · simp [hbsc]
    · rw [htd, lastOr_append]
      exact lastOr_of_ne_nil hdne _ _
    · simp [hlend, hleno]
      omega
    · rw [List.nodup_append]
      exact ⟨hndo, hndd, fun b hb ha => hdisj b ha hb⟩



/-
Concrete counterexamples, witnesses, and the evaluation of the invariant
violating split.
-/

/-- C2 counterexample: on the dequeue [1, 2] with the cursor moved to index
1 (the node holding 2), split_before hands back the dequeue holding [1] and
keeps [2] with the cursor — the claim states the returned dequeue is the
chain from the current node to the old tail, which here would be [2]. -/
theorem c2_counterexample :
    (let c := ((exPair.1.cursor_mut).move_next exPair.2).move_next exPair.2
     let r := c.split_before exPair.2
     Iter.collect r.2.2 r.1.iter r.1.len = [1] ∧
       Iter.collect r.2.2 r.2.1.dequeue.iter r.2.1.dequeue.len = [2] ∧
       ¬ (Iter.collect r.2.2 r.1.iter r.1.len = [2] ∧
          Iter.collect r.2.2 r.2.1.dequeue.iter r.2.1.dequeue.len = [1])) := by
  decide

/-- Witness for the amended C2 at the dequeue [1, 2], addresses [0, 1],
cursor at index 1 on address 1. -/
theorem c2_witness :
    Rep exPair.2 exPair.1 [0, 1] ∧
    (CursorMut.split_before ⟨some 1, exPair.1, some 1⟩ exPair.2).1.len = 1 ∧
    valsOf (CursorMut.split_before ⟨some 1, exPair.1, some 1⟩ exPair.2).2.2
        (([0, 1] : List Nat).take 1) =
      (valsOf exPair.2 [0, 1]).take 1 :=
  ⟨by decide,
    (c2_split_before_amended exPair.2 exPair.1 [0, 1] 1 1 (by decide)
      (by decide)).2.2.1,
    ((c2_split_before_amended exPair.2 exPair.1 [0, 1] 1 1 (by decide)
      (by decide)).2.2.2.2.2.2.2 (by decide)).2⟩

/-- Witness for C8 at the fifteen element dequeue of the test scenario:
seven move_next calls put the cursor on index 6 (value 101); split_after
leaves the first seven elements with the cursor and detaches the rest. -/
theorem c8_witness :
    Rep exBig.2 exBig.1 [0, 1, 2, 3, 4, 5, 6, 7, 8, 9, 10, 11, 12, 13, 14] ∧
    moveNextN exBig.2 7 (exBig.1.cursor_mut) = ⟨some 6, exBig.1, some 6⟩ ∧
    (CursorMut.split_after ⟨some 6, exBig.1, some 6⟩ exBig.2).2.1.dequeue.len
      = 7 ∧
    valsOf (CursorMut.split_after ⟨some 6, exBig.1, some 6⟩ exBig.2).2.2
        (([0, 1, 2, 3, 4, 5, 6, 7, 8, 9, 10, 11, 12, 13, 14] :
          List Nat).drop 7) =
      (valsOf exBig.2
        [0, 1, 2, 3, 4, 5, 6, 7, 8, 9, 10, 11, 12, 13, 14]).drop 7 :=
  ⟨by decide, by decide,
    (c8_split_after exBig.2 exBig.1
      [0, 1, 2, 3, 4, 5, 6, 7, 8, 9, 10, 11, 12, 13, 14] 6 6 (by decide)
      (by decide)).2.2.1,
    (c8_split_after exBig.2 exBig.1
      [0, 1, 2, 3, 4, 5, 6, 7, 8, 9, 10, 11, 12, 13, 14] 6 6 (by decide)
      (by decide)).2.2.2.2.2.2.2.2.2.1⟩

/-- C3 counterexample: over the dequeue [1] with the cursor at the ghost
position, splicing in the dequeue [2] with splice_before yields [1, 2]
(attached at the tail side) and with splice_after yields [2, 1] (attached
at the head side) — the opposite of the claim. -/
theorem c3_counterexample :
    (let r := CursorMut.splice_before (exOne.1.cursor_mut) exTwo.1 exTwo.2
     Iter.collect r.2 r.1.dequeue.iter r.1.dequeue.len = [1, 2] ∧
       ¬ Iter.collect r.2 r.1.dequeue.iter r.1.dequeue.len = [2, 1]) ∧
    (let r := CursorMut.splice_after (exOne.1.cursor_mut) exTwo.1 exTwo.2
     Iter.collect r.2 r.1.dequeue.iter r.1.dequeue.len = [2, 1] ∧
       ¬ Iter.collect r.2 r.1.dequeue.iter r.1.dequeue.len = [1, 2]) := by
  decide

/-- Witness for the amended C3 at the dequeue [1] (address 0) and the input
dequeue [2] (address 1), both in one heap. -/
theorem c3_witness :
    Rep exTwo.2 exOne.1 [0] ∧ Rep exTwo.2 exTwo.1 [1] ∧
    valsOf (CursorMut.splice_before ⟨none, exOne.1, none⟩ exTwo.1 exTwo.2).2
        ([0] ++ [1]) = valsOf exTwo.2 [0] ++ valsOf exTwo.2 [1] ∧
    valsOf (CursorMut.splice_after ⟨none, exOne.1, none⟩ exTwo.1 exTwo.2).2
        ([1] ++ [0]) = valsOf exTwo.2 [1] ++ valsOf exTwo.2 [0] :=
  ⟨by decide, by decide,
    (c3_splice_ghost_amended exTwo.2 exOne.1 exTwo.1 [0] [1] (by decide)
      (by decide) (by decide) (by decide) (by decide)).1.2,
    (c3_splice_ghost_amended exTwo.2 exOne.1 exTwo.1 [0] [1] (by decide)
      (by decide) (by decide) (by decide) (by decide)).2.2⟩

/-- C4: evaluating the code at the failing input.  From the empty dequeue
push_back 1, take a cursor, move_next once (index 0), split_before.  The
returned dequeue has len 0 yet a non-empty head field — the stale old head
pointer, a node still owned by the cursor's dequeue — violating the claimed
invariant that len = 0 holds exactly when head and tail are both empty.
Dropping that dequeue pops through the stale head and frees a node of the
other dequeue. -/
theorem c4_invariant_eval :
    (let r1 := Dequeue.new.push_back 1 (emptyHeap Nat)
     let c := (r1.1.cursor_mut).move_next r1.2
     let r := c.split_before r1.2
     r.1.len = 0 ∧ r.1.head = some 0 ∧
       ¬ (r.1.len = 0 ↔ (r.1.head = none ∧ r.1.tail = none))) := by
  decide


end Collections
